import Mathlib

/-!
# Verification of the slides.md markdown-to-slides pipeline

A shallow embedding of the pure parsing core of `main.go`:
`normalizeAssetPath`, `parseInline`, `markdownToHTML`, `parseMarkdown`
and `parseFrontmatter`.  Strings are modelled as `List Char` (the source
operates on UTF-8 Go strings; all delimiters involved are ASCII, so the
rune-level view is faithful for the properties below).  The Go regular
expressions used by the source are RE2 patterns whose matching on these
particular patterns is deterministic; they are embedded as left-to-right
scanners with exactly the leftmost, non-overlapping match semantics of
`regexp.ReplaceAllString(Func)`.  The YAML library used by
`parseFrontmatter` is third-party code, so it is taken as a parameter
(an arbitrary function returning `Option Frontmatter`).
-/

/-- Go `unicode.IsSpace` restricted to ASCII (the characters
`' '`, `'\t'`, `'\n'`, `'\v'`, `'\f'`, `'\r'`); used by `strings.TrimSpace`. -/
def goSpace (c : Char) : Bool :=
  c = ' ' || c = '\t' || c = '\n' || c = '\x0b' || c = '\x0c' || c = '\r'

/-- The RE2 character class `\s`, i.e. `[\t\n\f\r ]` (note: no `\v`). -/
def regexSpace (c : Char) : Bool :=
  c = ' ' || c = '\t' || c = '\n' || c = '\x0c' || c = '\r'

/-- Go `strings.TrimSpace` (ASCII whitespace). -/
def trimSpace (cs : List Char) : List Char :=
  ((cs.dropWhile goSpace).reverse.dropWhile goSpace).reverse

/-- Go `strings.TrimPrefix`: drop `pre` if it is a prefix, else return unchanged. -/
def dropPrefixIf (pre cs : List Char) : List Char :=
  if pre.isPrefixOf cs then cs.drop pre.length else cs

/-- Go `strings.ToLower` restricted to ASCII letters (no character outside
ASCII lowercases onto the ASCII letters appearing in the prefixes checked by
`normalizeAssetPath`, so this is faithful for that use). -/
def goToLower (c : Char) : Char :=
  if 'A' ≤ c && c ≤ 'Z' then Char.ofNat (c.toNat + 32) else c

/-- `normalizeAssetPath` from main.go: absolute URLs / paths are returned
unchanged, anything else is mounted under `/assets/`. -/
def normalizeAssetPath (src : List Char) : List Char :=
  let lower := src.map goToLower
  if ("http://".data).isPrefixOf lower || ("https://".data).isPrefixOf lower
      || ("data:".data).isPrefixOf lower || ("/".data).isPrefixOf lower then
    src
  else "/assets/".data ++ src

/-- The per-character escaping of Go `html.EscapeString`
(`&`→`&amp;`, `'`→`&#39;`, `<`→`&lt;`, `>`→`&gt;`, `"`→`&#34;`). -/
def escChar (c : Char) : List Char :=
  if c = '&' then "&amp;".data
  else if c = '\'' then "&#39;".data
  else if c = '<' then "&lt;".data
  else if c = '>' then "&gt;".data
  else if c = '"' then "&#34;".data
  else [c]

/-- Go `html.EscapeString`. -/
def htmlEscapeString (cs : List Char) : List Char :=
  cs.flatMap escChar

/-- Go `strings.Split(s, "\n")`. -/
def splitLines : List Char → List (List Char)
  | [] => [[]]
  | c :: cs =>
    if c = '\n' then [] :: splitLines cs
    else
      match splitLines cs with
      | t :: ts => (c :: t) :: ts
      | [] => [[c]]

/-- Worker for `splitOnSep`: Go `strings.Split` for a non-empty separator.
The first argument counts separator characters still to be skipped after a
match (the head character of the match is consumed by the step itself). -/
def splitOnSepAux (sep : List Char) : Nat → List Char → List Char → List (List Char)
  | skip+1, acc, _ :: cs => splitOnSepAux sep skip acc cs
  | _, acc, [] => [acc.reverse]
  | 0, acc, c :: cs =>
    if sep.isPrefixOf (c :: cs) then
      acc.reverse :: splitOnSepAux sep (sep.length - 1) [] cs
    else splitOnSepAux sep 0 (c :: acc) cs

/-- Go `strings.Split(s, sep)`; the source only uses non-empty separators. -/
def splitOnSep (sep cs : List Char) : List (List Char) :=
  if sep.isEmpty then [cs] else splitOnSepAux sep 0 [] cs

/-- Split at the leftmost occurrence of `sep` (Go `strings.SplitN(s, sep, 2)`
finding an occurrence ↔ `some (before, after)`). -/
def breakOnSep (sep : List Char) : List Char → Option (List Char × List Char)
  | [] => none
  | c :: cs =>
    if sep.isPrefixOf (c :: cs) then some ([], (c :: cs).drop sep.length)
    else
      match breakOnSep sep cs with
      | some (pre, post) => some (c :: pre, post)
      | none => none

/-- Go `strings.Join(lines, "\n")`. -/
def joinLines : List (List Char) → List Char
  | [] => []
  | [l] => l
  | l :: ls => l ++ '\n' :: joinLines ls

/-! ## Inline transformation (`parseInline`) -/

/-- The placeholder `fmt.Sprintf("__CODE%d__", n)`. -/
def phName (n : Nat) : List Char :=
  "__CODE".data ++ (Nat.repr n).data ++ "__".data

/-- The code-span extraction pass of `parseInline`: the regex
`` `([^`]+)` `` with `ReplaceAllStringFunc`, replacing each span with a fresh
placeholder and recording `(placeholder, <code>content</code>)` in match
order (the Go code stores these in a `map`; matches are processed left to
right and the counter increments in that order).  The first argument is
`some acc` while scanning a potential span with content `acc` so far. -/
def extractAux : Option (List Char) → Nat → List (List Char × List Char) →
    List Char → List Char × List (List Char × List Char)
  | none, _, m, [] => ([], m)
  | none, n, m, c :: cs =>
    if c = '`' then extractAux (some []) n m cs
    else
      let r := extractAux none n m cs
      (c :: r.1, r.2)
  | some acc, _, m, [] => ('`' :: acc, m)
  | some acc, n, m, c :: cs =>
    if c = '`' then
      if acc.isEmpty then
        let r := extractAux (some []) n m cs
        ('`' :: r.1, r.2)
      else
        let r := extractAux none (n+1)
          (m ++ [(phName n, "<code>".data ++ acc ++ "</code>".data)]) cs
        (phName n ++ r.1, r.2)
    else extractAux (some (acc ++ [c])) n m cs

/-- The image element emitted for a match of `!\[([^\]]*)\]\(([^)]+)\)`:
`fmt.Sprintf("<img src=\"%s\" alt=\"%s\"/>", normalizeAssetPath tgt, alt)`. -/
def imgTag (alt tgt : List Char) : List Char :=
  "<img src=\"".data ++ normalizeAssetPath tgt ++ "\" alt=\"".data ++ alt ++ "\"/>".data

/-- Try the image regex `!\[([^\]]*)\]\(([^)]+)\)` anchored at the current
position; on success return the replacement and the match length. -/
def tryImage : List Char → Option (List Char × Nat)
  | '!' :: '[' :: rest =>
    let alt := rest.takeWhile (· != ']')
    match rest.drop alt.length with
    | ']' :: '(' :: rest2 =>
      let tgt := rest2.takeWhile (· != ')')
      if tgt.isEmpty then none
      else
        match rest2.drop tgt.length with
        | ')' :: _ => some (imgTag alt tgt, alt.length + tgt.length + 5)
        | _ => none
    | _ => none
  | _ => none

/-- The image pass (`imageRegex.ReplaceAllStringFunc`): scan left to right,
replacing each leftmost match and continuing after it.  The `Nat` argument
counts already-matched characters still to be dropped. -/
def imageAux : Nat → List Char → List Char
  | skip+1, _ :: cs => imageAux skip cs
  | _, [] => []
  | 0, c :: cs =>
    match tryImage (c :: cs) with
    | some (r, len) => r ++ imageAux (len - 1) cs
    | none => c :: imageAux 0 cs

/-- The anchor element emitted for a match of `\[([^\]]+)\]\(([^)]+)\)`. -/
def aTag (label tgt : List Char) : List Char :=
  "<a href=\"".data ++ normalizeAssetPath tgt ++ "\">".data ++ label ++ "</a>".data

/-- Try the link regex `\[([^\]]+)\]\(([^)]+)\)` anchored at the current position. -/
def tryLink : List Char → Option (List Char × Nat)
  | '[' :: rest =>
    let label := rest.takeWhile (· != ']')
    if label.isEmpty then none
    else
      match rest.drop label.length with
      | ']' :: '(' :: rest2 =>
        let tgt := rest2.takeWhile (· != ')')
        if tgt.isEmpty then none
        else
          match rest2.drop tgt.length with
          | ')' :: _ => some (aTag label tgt, label.length + tgt.length + 4)
          | _ => none
      | _ => none
  | _ => none

/-- The link pass (`linkRegex.ReplaceAllStringFunc`). -/
def linkAux : Nat → List Char → List Char
  | skip+1, _ :: cs => linkAux skip cs
  | _, [] => []
  | 0, c :: cs =>
    match tryLink (c :: cs) with
    | some (r, len) => r ++ linkAux (len - 1) cs
    | none => c :: linkAux 0 cs

/-- Try the bold regex `\*\*([^*]+)\*\*` anchored at the current position. -/
def tryBold : List Char → Option (List Char × Nat)
  | '*' :: '*' :: rest =>
    let content := rest.takeWhile (· != '*')
    if content.isEmpty then none
    else
      match rest.drop content.length with
      | '*' :: '*' :: _ =>
        some ("<strong>".data ++ content ++ "</strong>".data, content.length + 4)
      | _ => none
  | _ => none

/-- The bold pass (`boldRegex.ReplaceAllString` with `<strong>$1</strong>`). -/
def boldAux : Nat → List Char → List Char
  | skip+1, _ :: cs => boldAux skip cs
  | _, [] => []
  | 0, c :: cs =>
    match tryBold (c :: cs) with
    | some (r, len) => r ++ boldAux (len - 1) cs
    | none => c :: boldAux 0 cs

/-- The part of the italic regex `(^|\s)\*([^*\n]+?)\*(\s|$)` after the `$1`
group, anchored at a `*`: returns `<em>$2</em>$3` and the number of
characters matched (excluding `$1`). -/
def tryItalicCore : List Char → Option (List Char × Nat)
  | '*' :: rest =>
    let content := rest.takeWhile (fun c => c != '*' && c != '\n')
    if content.isEmpty then none
    else
      match rest.drop content.length with
      | '*' :: rest2 =>
        match rest2 with
        | [] => some ("<em>".data ++ content ++ "</em>".data, content.length + 2)
        | c :: _ =>
          if regexSpace c then
            some ("<em>".data ++ content ++ "</em>".data ++ [c], content.length + 3)
          else none
      | _ => none
  | _ => none

/-- Try the full italic regex at the current position: `$1` is the empty
`^` match (only at the very start of the string) or a single `\s` character. -/
def tryItalic (atStart : Bool) : List Char → Option (List Char × Nat)
  | [] => none
  | c :: rest =>
    if atStart && c = '*' then tryItalicCore (c :: rest)
    else if regexSpace c then
      match tryItalicCore rest with
      | some (r, len) => some (c :: r, len + 1)
      | none => none
    else none

/-- The italic pass (`italicRegex.ReplaceAllString` with `$1<em>$2</em>$3`).
The flag records whether the scanner is at the very start of the string
(where `^` can match). -/
def italicAux : Bool → Nat → List Char → List Char
  | _, skip+1, _ :: cs => italicAux false skip cs
  | _, _, [] => []
  | atStart, 0, c :: cs =>
    match tryItalic atStart (c :: cs) with
    | some (r, len) => r ++ italicAux false (len - 1) cs
    | none => c :: italicAux false 0 cs

/-- Worker for `replaceAll` (non-empty pattern). -/
def replaceAllAux (pat repl : List Char) : Nat → List Char → List Char
  | skip+1, _ :: cs => replaceAllAux pat repl skip cs
  | _, [] => []
  | 0, c :: cs =>
    if pat.isPrefixOf (c :: cs) then
      repl ++ replaceAllAux pat repl (pat.length - 1) cs
    else c :: replaceAllAux pat repl 0 cs

/-- Go `strings.ReplaceAll` (the placeholders substituted by the source are
never empty, so the empty-pattern case is immaterial). -/
def replaceAll (pat repl cs : List Char) : List Char :=
  if pat.isEmpty then cs else replaceAllAux pat repl 0 cs

/-- The placeholder-restoration loop of `parseInline`.  The Go code ranges
over a `map` whose iteration order is unspecified; the model iterates the
recorded entries in match (insertion) order, which is one admissible order. -/
def restoreAll (m : List (List Char × List Char)) (cs : List Char) : List Char :=
  m.foldl (fun t e => replaceAll e.1 e.2 t) cs

/-- All passes of `parseInline` after the initial `html.EscapeString`:
code-span extraction, images, links, bold, italic, placeholder restoration,
in exactly the source's order. -/
def inlineAfterEscape (e : List Char) : List Char :=
  let ec := extractAux none 0 [] e
  restoreAll ec.2 (italicAux true 0 (boldAux 0 (linkAux 0 (imageAux 0 ec.1))))

/-- `parseInline` from main.go. -/
def parseInline (text : List Char) : List Char :=
  inlineAfterEscape (htmlEscapeString text)

/-! ## Block transformation (`markdownToHTML`) -/

/-- Try the anchored regex `^(\d+)\.\s+(.+)$` of `orderedListRegex` against a
(trim-normalized) line: digits, a dot, at least one `\s`, then a non-empty
remainder with no newline (`.` does not match `\n` and the groups are forced
up to the greedy `\s+`/`(.+)` boundary, which only matters when the remainder
would otherwise be empty). -/
def orderedMatch (cs : List Char) : Option (List Char × List Char) :=
  let digits := cs.takeWhile Char.isDigit
  if digits.isEmpty then none
  else
    match cs.drop digits.length with
    | '.' :: rest =>
      let sp := rest.takeWhile regexSpace
      let body := rest.drop sp.length
      if sp.isEmpty then none
      else if !body.isEmpty then
        if body.contains '\n' then none else some (digits, body)
      else
        match sp.getLast? with
        | some l => if 2 ≤ sp.length && l != '\n' then some (digits, [l]) else none
        | none => none
    | _ => none

/-- The three state flags of `markdownToHTML`'s line loop. -/
structure MDState where
  inCodeBlock : Bool
  inUL : Bool
  inOL : Bool
deriving DecidableEq, Repr

/-- One iteration of the line loop of `markdownToHTML`: given the current
state and the next line, the new state and the output appended for this line
(branch order exactly as in the source: fence, in-code-block, heading with
level ≤ 6, horizontal rule, unordered item, ordered item, paragraph/blank). -/
def processLine (st : MDState) (line : List Char) : MDState × List Char :=
  let trimmed := trimSpace line
  if ("```".data).isPrefixOf trimmed then
    let closeU := if st.inUL then "</ul>\n".data else []
    let closeO := if st.inOL then "</ol>\n".data else []
    let toggle := if st.inCodeBlock then "</code></pre>".data else "<pre><code>".data
    (⟨!st.inCodeBlock, false, false⟩, closeU ++ closeO ++ toggle)
  else if st.inCodeBlock then
    (st, htmlEscapeString line ++ ['\n'])
  else
    let level := (trimmed.takeWhile (· == '#')).length
    if ("#".data).isPrefixOf trimmed ∧ level ≤ 6 then
      let content := parseInline (trimSpace (trimmed.drop level))
      (st, "<h".data ++ (Nat.repr level).data ++ ">".data ++ content
        ++ "</h".data ++ (Nat.repr level).data ++ ">\n".data)
    else if trimmed = "---".data ∨ trimmed = "***".data ∨ trimmed = "___".data then
      (st, "<hr>\n".data)
    else if ("- ".data).isPrefixOf trimmed ∨ ("* ".data).isPrefixOf trimmed then
      let closeO := if st.inOL then "</ol>\n".data else []
      let openU := if !st.inUL then "<ul>\n".data else []
      let content := parseInline (dropPrefixIf ("* ".data) (dropPrefixIf ("- ".data) trimmed))
      (⟨st.inCodeBlock, true, false⟩,
        closeO ++ openU ++ "<li>".data ++ content ++ "</li>\n".data)
    else
      match orderedMatch trimmed with
      | some (_, rest) =>
        let closeU := if st.inUL then "</ul>\n".data else []
        let openO := if !st.inOL then "<ol>\n".data else []
        (⟨st.inCodeBlock, false, true⟩,
          closeU ++ openO ++ "<li>".data ++ parseInline rest ++ "</li>\n".data)
      | none =>
        if trimmed.isEmpty then (st, [])
        else
          let closeU := if st.inUL then "</ul>\n".data else []
          let closeO := if st.inOL then "</ol>\n".data else []
          (⟨st.inCodeBlock, false, false⟩,
            closeU ++ closeO ++ "<p>".data ++ parseInline trimmed ++ "</p>\n".data)

/-- `markdownToHTML` from main.go: fold `processLine` over the lines, then
close a still-open code block, unordered list and ordered list, in that order. -/
def markdownToHTML (md : List Char) : List Char :=
  if md.isEmpty then []
  else
    let res := (splitLines md).foldl
      (fun p line =>
        let q := processLine p.1 line
        (q.1, p.2 ++ q.2))
      ((⟨false, false, false⟩ : MDState), [])
    res.2 ++ (if res.1.inCodeBlock then "</code></pre>".data else [])
      ++ (if res.1.inUL then "</ul>\n".data else [])
      ++ (if res.1.inOL then "</ol>\n".data else [])

/-! ## Slide segmentation (`parseMarkdown`) -/

/-- The accumulator of `parseMarkdown`'s heading-fallback loop. -/
structure SegState where
  slides : List (List Char)
  current : List (List Char)
  inCode : Bool
deriving DecidableEq, Repr

/-- One iteration of the heading-fallback loop of `parseMarkdown` (note that
it tests the *raw* line, not its trimmed form). -/
def segStep (st : SegState) (line : List Char) : SegState :=
  if ("```".data).isPrefixOf line then
    ⟨st.slides, st.current ++ [line], !st.inCode⟩
  else if !st.inCode && ("#".data).isPrefixOf line then
    ⟨st.slides ++ (if st.current.isEmpty then [] else [joinLines st.current]),
      [line], st.inCode⟩
  else ⟨st.slides, st.current ++ [line], st.inCode⟩

/-- `parseMarkdown` from main.go: trim, split on `"\n---\n"`; if no separator
was found, fall back to heading-boundary segmentation. -/
def parseMarkdown (content : List Char) : List (List Char) :=
  let c := trimSpace content
  let parts := splitOnSep ("\n---\n".data) c
  if parts.length = 1 then
    let fin := (splitLines c).foldl segStep ⟨[], [], false⟩
    fin.slides ++ (if fin.current.isEmpty then [] else [joinLines fin.current])
  else (parts.map trimSpace).filter (fun p => !p.isEmpty)

/-! ## Frontmatter extraction (`parseFrontmatter`) -/

/-- The `Frontmatter` struct of main.go (only the `title` field). -/
structure Frontmatter where
  title : List Char
deriving DecidableEq, Repr

/-- `parseFrontmatter` from main.go.  `yamlUnmarshal` stands for the
third-party `yaml.Unmarshal` call: `none` models a parse error. -/
def parseFrontmatter (yamlUnmarshal : List Char → Option Frontmatter)
    (content : List Char) : List Char × List Char :=
  let trimmed := trimSpace content
  if !(("---\n".data).isPrefixOf trimmed || trimmed = "---".data) then ([], content)
  else
    match breakOnSep ("\n---\n".data) trimmed with
    | none => ([], content)
    | some (pre, post) =>
      match yamlUnmarshal (dropPrefixIf ("---\n".data) pre) with
      | none => ([], content)
      | some fm => (fm.title, post)

/-! ## Auxiliary decidable predicates used in the statements -/

/-- Decidable contiguous-substring test: `hasSub pat cs = true` iff `pat`
occurs as a contiguous run inside `cs`.  Used to state the "emits no
`</ul>`/`</ol>`" parts of the specification. -/
def hasSub (pat : List Char) : List Char → Bool
  | [] => pat.isEmpty
  | c :: cs => pat.isPrefixOf (c :: cs) || hasSub pat cs

/-- Every `&` in the list begins one of the five entities produced by
`html.EscapeString` (`&amp;`, `&lt;`, `&gt;`, `&#34;`, `&#39;`). -/
def ampEntityOk : List Char → Bool
  | [] => true
  | c :: cs =>
    if c = '&' then
      (("amp;".data).isPrefixOf cs || ("lt;".data).isPrefixOf cs
        || ("gt;".data).isPrefixOf cs || ("#34;".data).isPrefixOf cs
        || ("#39;".data).isPrefixOf cs) && ampEntityOk cs
    else ampEntityOk cs

/-- The shape of every entry recorded by the code-span extraction pass:
a placeholder paired with `<code>content</code>` where the content contains
no `<` (it is cut from the already-escaped text). -/
def goodEntry (e : List Char × List Char) : Prop :=
  ∃ k content, e.1 = phName k
    ∧ e.2 = "<code>".data ++ content ++ "</code>".data
    ∧ '<' ∉ content

/-- The common shape of all five left-to-right replacement scanners above
(`imageAux`, `linkAux`, `boldAux`, `italicAux`, `replaceAllAux`), abstracted
over the matcher tried at each position; the `Bool` is the `italicAux`
start-of-string flag (ignored by the other matchers). -/
def scanSt (tm : Bool → List Char → Option (List Char × Nat)) :
    Bool → Nat → List Char → List Char
  | _, skip+1, _ :: cs => scanSt tm false skip cs
  | _, _, [] => []
  | b, 0, c :: cs =>
    match tm b (c :: cs) with
    | some (r, len) => r ++ scanSt tm false (len - 1) cs
    | none => c :: scanSt tm false 0 cs

/-! ## Generic lemmas about `hasSub` -/

lemma bool_ne_false {b : Bool} (h : ¬ b = false) : b = true := by
  cases b <;> simp_all

lemma hasSub_cons_iff (pat : List Char) (c : Char) (cs : List Char) :
    hasSub pat (c :: cs) = true ↔
      (pat.isPrefixOf (c :: cs) = true ∨ hasSub pat cs = true) := by
  simp only [hasSub, Bool.or_eq_true]

lemma hasSub_of_tail {pat : List Char} {c : Char} {cs : List Char}
    (h : hasSub pat cs = true) : hasSub pat (c :: cs) = true :=
  (hasSub_cons_iff ..).mpr (Or.inr h)

lemma hasSub_cons_false {pat : List Char} {c : Char} {cs : List Char}
    (h1 : pat.isPrefixOf (c :: cs) = false) (h2 : hasSub pat cs = false) :
    hasSub pat (c :: cs) = false := by
  simp [hasSub, h1, h2]

lemma hasSub_tail_false {pat : List Char} {c : Char} {cs : List Char}
    (h : hasSub pat (c :: cs) = false) : hasSub pat cs = false := by
  by_contra hc
  simp [hasSub, bool_ne_false hc] at h

lemma hasSub_head_mem {a : Char} {p cs : List Char} (h : hasSub (a :: p) cs = true) :
    a ∈ cs := by
  induction cs with
  | nil => simp [hasSub] at h
  | cons c cs ih =>
    rcases (hasSub_cons_iff ..).mp h with hp | hr
    · rcases List.cons_prefix_cons.mp (List.isPrefixOf_iff_prefix.mp hp) with ⟨rfl, -⟩
      exact List.mem_cons_self ..
    · exact List.mem_cons_of_mem _ (ih hr)

lemma hasSub_false_of_not_mem {a : Char} {p cs : List Char} (h : a ∉ cs) :
    hasSub (a :: p) cs = false := by
  by_contra hc
  exact h (hasSub_head_mem (bool_ne_false hc))

lemma hasSub_of_prefix_pattern {p q cs : List Char} (h : hasSub (p ++ q) cs = true) :
    hasSub p cs = true := by
  induction cs with
  | nil =>
    simp only [hasSub, List.isEmpty_iff] at h ⊢
    exact (List.append_eq_nil.mp h).1
  | cons c cs ih =>
    rcases (hasSub_cons_iff ..).mp h with hp | hr
    · have : p ++ q <+: c :: cs := List.isPrefixOf_iff_prefix.mp hp
      have hpp : p <+: c :: cs := (List.prefix_append p q).trans this
      exact (hasSub_cons_iff ..).mpr (Or.inl (List.isPrefixOf_iff_prefix.mpr hpp))
    · exact hasSub_of_tail (ih hr)

lemma hasSub_append_right {p s t : List Char} (h : hasSub p t = true) :
    hasSub p (s ++ t) = true := by
  induction s with
  | nil => simpa using h
  | cons a s ih => exact hasSub_of_tail ih

lemma hasSub_append_left {p l t : List Char} (h : hasSub p l = true) :
    hasSub p (l ++ t) = true := by
  induction l with
  | nil =>
    simp only [hasSub, List.isEmpty_iff] at h
    subst h
    cases t with
    | nil => simp [hasSub]
    | cons c cs => simp [hasSub, List.isPrefixOf]
  | cons c l ih =>
    rcases (hasSub_cons_iff ..).mp h with hp | hr
    · have : p <+: c :: l := List.isPrefixOf_iff_prefix.mp hp
      have hpp : p <+: (c :: l) ++ t := this.trans (List.prefix_append _ t)
      rw [List.cons_append] at hpp ⊢
      exact (hasSub_cons_iff ..).mpr (Or.inl (List.isPrefixOf_iff_prefix.mpr hpp))
    · rw [List.cons_append]
      exact hasSub_of_tail (ih hr)

lemma hasSub_mono_within {p l m : List Char} (h : l <:+: m) (hs : hasSub p l = true) :
    hasSub p m = true := by
  rcases h with ⟨s, t, rfl⟩
  rw [List.append_assoc]
  exact hasSub_append_right (hasSub_append_left hs)

lemma hasSub_false_of_within {p l m : List Char} (h : l <:+: m)
    (hs : hasSub p m = false) : hasSub p l = false := by
  by_contra hc
  simp [hasSub_mono_within h (bool_ne_false hc)] at hs

lemma hasSub3_append_cases {a b c : Char} {xs ys : List Char}
    (h : hasSub [a, b, c] (xs ++ ys) = true) :
    hasSub [a, b, c] xs = true ∨ hasSub [a, b, c] ys = true
    ∨ (xs.getLast? = some a ∧ [b, c] <+: ys)
    ∨ ([a, b] <:+ xs ∧ [c] <+: ys) := by
  induction xs with
  | nil => right; left; simpa using h
  | cons x xs ih =>
    rw [List.cons_append] at h
    rcases (hasSub_cons_iff ..).mp h with hp | hr
    · rcases List.cons_prefix_cons.mp (List.isPrefixOf_iff_prefix.mp hp) with ⟨rfl, h2⟩
      cases xs with
      | nil =>
        right; right; left
        exact ⟨rfl, by simpa using h2⟩
      | cons z zs =>
        rcases List.cons_prefix_cons.mp (by simpa using h2) with ⟨rfl, h3⟩
        cases zs with
        | nil =>
          right; right; right
          exact ⟨List.suffix_rfl, by simpa using h3⟩
        | cons z₂ zs₂ =>
          have hz : c = z₂ := by simpa using h3
          subst hz
          left
          simp [hasSub, List.isPrefixOf]
    · rcases ih hr with h1 | h2 | ⟨hl, hp2⟩ | ⟨hs, hp2⟩
      · exact Or.inl (hasSub_of_tail h1)
      · exact Or.inr (Or.inl h2)
      · refine Or.inr (Or.inr (Or.inl ⟨?_, hp2⟩))
        cases xs with
        | nil => simp at hl
        | cons z zs => simpa using hl
      · exact Or.inr (Or.inr (Or.inr ⟨hs.trans (List.suffix_cons x xs), hp2⟩))

lemma hasSub3_append_false {a b c : Char} {xs ys : List Char}
    (hx : hasSub [a, b, c] xs = false) (hy : hasSub [a, b, c] ys = false)
    (h3 : [b, c] <+: ys → xs.getLast? = some a → False)
    (h4 : [c] <+: ys → [a, b] <:+ xs → False) :
    hasSub [a, b, c] (xs ++ ys) = false := by
  rcases Bool.eq_false_or_eq_true (hasSub [a, b, c] (xs ++ ys)) with h | h
  swap
  · exact h
  · exfalso
    rcases hasSub3_append_cases h with h1 | h2 | ⟨hl, hp⟩ | ⟨hs, hp⟩
    · simp [h1] at hx
    · simp [h2] at hy
    · exact h3 hp hl
    · exact h4 hp hs

lemma prefix_pair_head {x y d : Char} {l : List Char} (h : [x, y] <+: (d :: l)) :
    x = d :=
  (List.cons_prefix_cons.mp h).1

lemma prefix_single_head {x d : Char} {l : List Char} (h : [x] <+: (d :: l)) :
    x = d :=
  (List.cons_prefix_cons.mp h).1

lemma prefix_two_of_append {x y : Char} {u v : List Char} (hu : 2 ≤ u.length)
    (h : [x, y] <+: (u ++ v)) : [x, y] <+: u := by
  match u, hu with
  | a :: b :: u', _ =>
    rw [List.cons_append, List.cons_append] at h
    rcases List.cons_prefix_cons.mp h with ⟨rfl, h2⟩
    rcases List.cons_prefix_cons.mp h2 with ⟨rfl, -⟩
    exact List.cons_prefix_cons.mpr ⟨rfl, List.cons_prefix_cons.mpr ⟨rfl, List.nil_prefix⟩⟩

lemma suffix_two_append {x y : Char} {u v : List Char} (hv : 2 ≤ v.length)
    (h : [x, y] <:+ (u ++ v)) : [x, y] <:+ v := by
  rw [← List.reverse_prefix] at h ⊢
  rw [List.reverse_append] at h
  exact prefix_two_of_append (by simpa using hv) h

lemma getLast?_of_suffix_pair {x y : Char} {l : List Char} (h : [x, y] <:+ l) :
    l.getLast? = some y := by
  rcases h with ⟨s, rfl⟩
  rw [List.getLast?_append_of_ne_nil s (by simp)]
  rfl

lemma suffix_pair_mem {x y : Char} {l : List Char} (h : [x, y] <:+ l) : x ∈ l :=
  h.isInfix.sublist.mem (by simp)

/-! ## Lemmas about `html.EscapeString` -/

lemma escChar_not_lt (c : Char) : '<' ∉ escChar c := by
  unfold escChar
  split_ifs with h1 h2 h3 h4 h5
  · decide
  · decide
  · decide
  · decide
  · decide
  · simp only [List.mem_singleton]
    exact fun h => h3 h.symm

lemma escChar_not_gt (c : Char) : '>' ∉ escChar c := by
  unfold escChar
  split_ifs with h1 h2 h3 h4 h5
  · decide
  · decide
  · decide
  · decide
  · decide
  · simp only [List.mem_singleton]
    exact fun h => h4 h.symm

lemma htmlEscape_not_lt (s : List Char) : '<' ∉ htmlEscapeString s := by
  intro h
  rcases List.mem_flatMap.mp h with ⟨a, -, ha⟩
  exact escChar_not_lt a ha

lemma htmlEscape_not_gt (s : List Char) : '>' ∉ htmlEscapeString s := by
  intro h
  rcases List.mem_flatMap.mp h with ⟨a, -, ha⟩
  exact escChar_not_gt a ha

lemma ampEntityOk_escChar (c : Char) (rest : List Char) (h : ampEntityOk rest = true) :
    ampEntityOk (escChar c ++ rest) = true := by
  unfold escChar
  split_ifs with h1 h2 h3 h4 h5
  · subst h1
    simp +decide [ampEntityOk, List.isPrefixOf, h]
  · subst h2
    simp +decide [ampEntityOk, List.isPrefixOf, h]
  · subst h3
    simp +decide [ampEntityOk, List.isPrefixOf, h]
  · subst h4
    simp +decide [ampEntityOk, List.isPrefixOf, h]
  · subst h5
    simp +decide [ampEntityOk, List.isPrefixOf, h]
  · simp [ampEntityOk, h1, h]

lemma ampEntityOk_escape (s : List Char) : ampEntityOk (htmlEscapeString s) = true := by
  induction s with
  | nil => rfl
  | cons a s ih => exact ampEntityOk_escChar a _ ih

/-! ## Characters of `Nat.repr` and the placeholders -/

lemma digitChar_ne_lt : ∀ d : Nat, Nat.digitChar d ≠ '<'
  | 0 => by decide
  | 1 => by decide
  | 2 => by decide
  | 3 => by decide
  | 4 => by decide
  | 5 => by decide
  | 6 => by decide
  | 7 => by decide
  | 8 => by decide
  | 9 => by decide
  | 10 => by decide
  | 11 => by decide
  | 12 => by decide
  | 13 => by decide
  | 14 => by decide
  | 15 => by decide
  | _+16 => fun h => (by decide : ¬ ('*' : Char) = '<') h

lemma toDigitsCore_mem {c : Char} :
    ∀ (fuel n : Nat) (ds : List Char),
      c ∈ Nat.toDigitsCore 10 fuel n ds → c ∈ ds ∨ ∃ d, c = Nat.digitChar d := by
  intro fuel
  induction fuel with
  | zero => intro n ds h; exact Or.inl h
  | succ fuel ih =>
    intro n ds h
    unfold Nat.toDigitsCore at h
    dsimp only [] at h
    split at h
    · rcases List.mem_cons.mp h with h | h
      · exact Or.inr ⟨_, h⟩
      · exact Or.inl h
    · rcases ih _ _ h with h | h
      · rcases List.mem_cons.mp h with h | h
        · exact Or.inr ⟨_, h⟩
        · exact Or.inl h
      · exact Or.inr h

lemma repr_mem_digit {c : Char} {n : Nat} (h : c ∈ (Nat.repr n).data) :
    ∃ d, c = Nat.digitChar d := by
  have hrepr : (Nat.repr n).data = Nat.toDigits 10 n := rfl
  rw [hrepr, Nat.toDigits] at h
  rcases toDigitsCore_mem _ _ _ h with h | h
  · simp at h
  · exact h

lemma phName_not_lt (n : Nat) : '<' ∉ phName n := by
  intro h
  unfold phName at h
  rcases List.mem_append.mp h with h | h
  · rcases List.mem_append.mp h with h | h
    · simp at h
    · rcases repr_mem_digit h with ⟨d, hd⟩
      exact digitChar_ne_lt d hd.symm
  · simp at h

/-! ## Lemmas about the code-span extraction pass -/

lemma extract_out_not_lt :
    ∀ (cs : List Char) (o : Option (List Char)) (n : Nat)
      (m : List (List Char × List Char)),
      '<' ∉ cs → (∀ acc, o = some acc → '<' ∉ acc) →
      '<' ∉ (extractAux o n m cs).1 := by
  intro cs
  induction cs with
  | nil =>
    intro o n m h ho
    cases o with
    | none => simp [extractAux]
    | some acc =>
      intro hmem
      simp only [extractAux] at hmem
      rcases List.mem_cons.mp hmem with h1 | h1
      · exact absurd h1 (by decide)
      · exact ho acc rfl h1
  | cons c cs ih =>
    intro o n m h ho
    have hc : '<' ∉ cs := fun hx => h (List.mem_cons_of_mem _ hx)
    have hch : ¬ '<' = c := fun he => h (by rw [he]; exact List.mem_cons_self ..)
    cases o with
    | none =>
      by_cases hbq : c = '`'
      · subst hbq
        simp only [extractAux, if_pos rfl]
        exact ih (some []) n m hc (by intro acc hacc hmem; cases hacc; simp at hmem)
      · simp only [extractAux, if_neg hbq]
        intro hmem
        rcases List.mem_cons.mp hmem with h1 | h1
        · exact hch h1
        · exact ih none n m hc (by intro acc hacc; cases hacc) h1
    | some acc =>
      by_cases hbq : c = '`'
      · subst hbq
        simp only [extractAux, if_pos rfl]
        by_cases hacc : acc.isEmpty
        · rw [if_pos hacc]
          intro hmem
          rcases List.mem_cons.mp hmem with h1 | h1
          · exact absurd h1 (by decide)
          · exact ih (some []) n m hc (by intro a ha hm; cases ha; simp at hm) h1
        · rw [if_neg hacc]
          intro hmem
          rcases List.mem_append.mp hmem with h1 | h1
          · exact phName_not_lt n h1
          · exact ih none (n+1) _ hc (by intro a ha; cases ha) h1
      · simp only [extractAux, if_neg hbq]
        refine ih (some (acc ++ [c])) n m hc ?_
        intro a ha hmem
        cases ha
        rcases List.mem_append.mp hmem with h1 | h1
        · exact ho acc rfl h1
        · rcases List.mem_singleton.mp h1 with h2
          exact hch h2

lemma extract_map_good :
    ∀ (cs : List Char) (o : Option (List Char)) (n : Nat)
      (m : List (List Char × List Char)),
      '<' ∉ cs → (∀ acc, o = some acc → '<' ∉ acc) →
      (∀ e ∈ m, goodEntry e) →
      ∀ e ∈ (extractAux o n m cs).2, goodEntry e := by
  intro cs
  induction cs with
  | nil =>
    intro o n m h ho hm
    cases o with
    | none => simpa [extractAux] using hm
    | some acc => simpa [extractAux] using hm
  | cons c cs ih =>
    intro o n m h ho hm
    have hc : '<' ∉ cs := fun hx => h (List.mem_cons_of_mem _ hx)
    have hch : ¬ '<' = c := fun he => h (by rw [he]; exact List.mem_cons_self ..)
    cases o with
    | none =>
      by_cases hbq : c = '`'
      · subst hbq
        simp only [extractAux, if_pos rfl]
        exact ih (some []) n m hc (by intro a ha hmem; cases ha; simp at hmem) hm
      · simp only [extractAux, if_neg hbq]
        exact ih none n m hc (by intro a ha; cases ha) hm
    | some acc =>
      by_cases hbq : c = '`'
      · subst hbq
        simp only [extractAux, if_pos rfl]
        by_cases hacc : acc.isEmpty
        · rw [if_pos hacc]
          exact ih (some []) n m hc (by intro a ha hmem; cases ha; simp at hmem) hm
        · rw [if_neg hacc]
          refine ih none (n+1) _ hc (by intro a ha; cases ha) ?_
          intro e he
          rcases List.mem_append.mp he with h1 | h1
          · exact hm e h1
          · rcases List.mem_singleton.mp h1 with rfl
            exact ⟨n, acc, rfl, rfl, ho acc rfl⟩
      · simp only [extractAux, if_neg hbq]
        refine ih (some (acc ++ [c])) n m hc ?_ hm
        intro a ha hmem
        cases ha
        rcases List.mem_append.mp hmem with h1 | h1
        · exact ho acc rfl h1
        · exact hch (List.mem_singleton.mp h1)

/-! ## Claim C1 -/

/-- C1: every literal `<`, `>`, `&` of the source is HTML-escaped in the
fragment: (i) `html.EscapeString` output contains no raw `<` or `>`, and
every `&` in it begins an escape entity; (ii) `parseInline` escapes its whole
input as its very first pass, before any tag is injected by the later passes;
(iii) a line inside a fenced code block (that is not itself a fence) is
emitted as the raw line HTML-escaped, followed by a newline. -/
theorem c1_escape_before_tags :
    (∀ s : List Char, '<' ∉ htmlEscapeString s ∧ '>' ∉ htmlEscapeString s
      ∧ ampEntityOk (htmlEscapeString s) = true)
    ∧ (∀ t : List Char, parseInline t = inlineAfterEscape (htmlEscapeString t))
    ∧ (∀ (st : MDState) (line : List Char),
        st.inCodeBlock = true →
        ("```".data).isPrefixOf (trimSpace line) = false →
        processLine st line = (st, htmlEscapeString line ++ ['\n'])) := by
  refine ⟨fun s => ⟨htmlEscape_not_lt s, htmlEscape_not_gt s, ampEntityOk_escape s⟩,
    fun t => rfl, fun st line hcode hfence => ?_⟩
  simp only [processLine]
  rw [if_neg (by simp [hfence]), if_pos (by simp [hcode])]

/-- Witness for C1: a concrete code-block line containing `<` and `&`. -/
theorem c1_witness :
    processLine ⟨true, false, false⟩ ("a<b & c".data) =
      (⟨true, false, false⟩, "a&lt;b &amp; c\n".data) := by
  rw [c1_escape_before_tags.2.2 ⟨true, false, false⟩ ("a<b & c".data) rfl (by decide)]
  decide

/-! ## Claim C2 -/

/-- C2 (refuting evaluation): the claim's own positive example holds
(`` `[x](y)` `` becomes `<code>[x](y)</code>`), but code-span contents are
not always restored verbatim: when a span's content is itself shaped like a
placeholder, the restoration loop substitutes inside it.  For the line
`` `__CODE1__` `__CODE0__` `` the first span's content `__CODE1__` is emitted
as `<code>__CODE0__</code>` (under the insertion-order model of the Go map
iteration; every other iteration order mangles the input as well), not as the
recorded verbatim content. -/
theorem c2_placeholder_collision_eval :
    parseInline ("`[x](y)`".data) = ("<code>[x](y)</code>".data)
    ∧ parseInline ("`__CODE1__` `__CODE0__`".data)
        = ("<code><code>__CODE0__</code></code> <code>__CODE0__</code>".data)
    ∧ ("<code><code>__CODE0__</code></code> <code>__CODE0__</code>".data : List Char)
        ≠ ("<code>__CODE1__</code> <code>__CODE0__</code>".data) :=
  ⟨by decide, by decide, by decide⟩

/-! ## Claim C9 -/

/-- C9: `normalizeAssetPath` returns its argument unchanged exactly when the
argument case-insensitively begins with `http://`, `https://`, `data:` or
`/`; otherwise it prepends `/assets/`.  Consequently `![x](pic.png)` renders
as `<img src="/assets/pic.png" alt="x"/>` while an `https://` target is left
unchanged in the emitted image element. -/
theorem c9_asset_path :
    (∀ t : List Char,
      normalizeAssetPath t = t ↔
        (("http://".data).isPrefixOf (t.map goToLower) = true
          ∨ ("https://".data).isPrefixOf (t.map goToLower) = true
          ∨ ("data:".data).isPrefixOf (t.map goToLower) = true
          ∨ ("/".data).isPrefixOf (t.map goToLower) = true))
    ∧ parseInline ("![x](pic.png)".data) = ("<img src=\"/assets/pic.png\" alt=\"x\"/>".data)
    ∧ parseInline ("![x](https://h/p.png)".data)
        = ("<img src=\"https://h/p.png\" alt=\"x\"/>".data) := by
  refine ⟨fun t => ⟨fun h => ?_, fun h => ?_⟩, by decide, by decide⟩
  · by_contra hc
    push_neg at hc
    rcases hc with ⟨h1, h2, h3, h4⟩
    have hfalse : (("http://".data).isPrefixOf (t.map goToLower)
        || ("https://".data).isPrefixOf (t.map goToLower)
        || ("data:".data).isPrefixOf (t.map goToLower)
        || ("/".data).isPrefixOf (t.map goToLower)) = false := by
      simp [h1, h2, h3, h4]
    have heq : normalizeAssetPath t = "/assets/".data ++ t := by
      simp only [normalizeAssetPath]
      rw [if_neg (by simp [hfalse])]
    rw [heq] at h
    have hlen := congrArg List.length h
    simp at hlen
    omega
  · simp only [normalizeAssetPath]
    rw [if_pos]
    rcases h with h | h | h | h <;> simp [h]

/-- Witness for C9: the `https://` target is returned unchanged. -/
theorem c9_witness :
    normalizeAssetPath ("https://h/p.png".data) = ("https://h/p.png".data) :=
  (c9_asset_path.1 ("https://h/p.png".data)).mpr (Or.inr (Or.inl (by decide)))

/-! ## Claim C5 -/

/-- C5: `parseFrontmatter` returns an absent title and the original document
unchanged whenever the trimmed document does not begin with the `---`
delimiter line, or no closing delimiter (a further `"\n---\n"`) is found, or
the enclosed text fails to parse as a metadata mapping; it is a total
function (never raises), and on success it returns the frontmatter `title`
and everything after the closing delimiter as the body.  Stated for every
possible behaviour of the third-party YAML parser. -/
theorem c5_frontmatter_fallback :
    ∀ (yamlUnmarshal : List Char → Option Frontmatter) (content : List Char),
      (¬ (("---\n".data).isPrefixOf (trimSpace content) = true
            ∨ trimSpace content = "---".data) →
        parseFrontmatter yamlUnmarshal content = ([], content))
      ∧ (breakOnSep ("\n---\n".data) (trimSpace content) = none →
        parseFrontmatter yamlUnmarshal content = ([], content))
      ∧ (∀ pre post, breakOnSep ("\n---\n".data) (trimSpace content) = some (pre, post) →
          yamlUnmarshal (dropPrefixIf ("---\n".data) pre) = none →
          parseFrontmatter yamlUnmarshal content = ([], content))
      ∧ (∀ pre post fm,
          (("---\n".data).isPrefixOf (trimSpace content) = true
            ∨ trimSpace content = "---".data) →
          breakOnSep ("\n---\n".data) (trimSpace content) = some (pre, post) →
          yamlUnmarshal (dropPrefixIf ("---\n".data) pre) = some fm →
          parseFrontmatter yamlUnmarshal content = (fm.title, post)) := by
  intro y content
  refine ⟨fun h => ?_, fun h => ?_, fun pre post hbrk hy => ?_, fun pre post fm hd hbrk hy => ?_⟩
  · push_neg at h
    simp only [parseFrontmatter]
    rw [if_pos]
    simp [h.1, h.2]
  · simp only [parseFrontmatter]
    split
    · rfl
    · rw [h]
  · simp only [parseFrontmatter]
    split
    · rfl
    · rw [hbrk]
      show (match y (dropPrefixIf ("---\n".data) pre) with
        | none => (([] : List Char), content)
        | some fm => (fm.title, post)) = ([], content)
      rw [hy]
  · simp only [parseFrontmatter]
    rw [if_neg]
    · rw [hbrk]
      show (match y (dropPrefixIf ("---\n".data) pre) with
        | none => (([] : List Char), content)
        | some fm => (fm.title, post)) = (fm.title, post)
      rw [hy]
    · rcases hd with hd | hd <;> simp [hd]

/-- Witness for C5: a document with no frontmatter delimiter is passed
through untouched with an absent title. -/
theorem c5_witness :
    parseFrontmatter (fun _ => none) ("hello world".data) = ([], "hello world".data) :=
  (c5_frontmatter_fallback (fun _ => none) ("hello world".data)).1 (by decide)

/-! ## Claim C8 -/

/-- C8: whenever the trimmed body splits into at least two parts at the
separator `"\n---\n"` (i.e. it contains at least one separator), the result
of `parseMarkdown` is exactly the separator-delimited chunks in document
order, each trimmed, with empty chunks dropped. -/
theorem c8_separator_split :
    ∀ body : List Char,
      2 ≤ (splitOnSep ("\n---\n".data) (trimSpace body)).length →
      parseMarkdown body =
        ((splitOnSep ("\n---\n".data) (trimSpace body)).map trimSpace).filter
          (fun p => !p.isEmpty) := by
  intro body h
  have hne : ¬ ((splitOnSep ("\n---\n".data) (trimSpace body)).length = 1) := by omega
  simp only [parseMarkdown]
  rw [if_neg hne]

/-- Witness for C8: `"one\n---\ntwo\n---\nthree"` yields exactly the three
slides `"one"`, `"two"`, `"three"`. -/
theorem c8_witness :
    2 ≤ (splitOnSep ("\n---\n".data) (trimSpace ("one\n---\ntwo\n---\nthree".data))).length
    ∧ parseMarkdown ("one\n---\ntwo\n---\nthree".data) =
        ((splitOnSep ("\n---\n".data) (trimSpace ("one\n---\ntwo\n---\nthree".data))).map
          trimSpace).filter (fun p => !p.isEmpty)
    ∧ parseMarkdown ("one\n---\ntwo\n---\nthree".data) =
        [("one".data), ("two".data), ("three".data)] :=
  ⟨by decide, c8_separator_split ("one\n---\ntwo\n---\nthree".data) (by decide), by decide⟩

/-! ## Claim C10 -/

/-- The list flags of the state-fold of `markdownToHTML` are never both set:
single-step preservation. -/
lemma processLine_flags (st : MDState) (line : List Char)
    (h : (st.inUL && st.inOL) = false) :
    ((processLine st line).1.inUL && (processLine st line).1.inOL) = false := by
  simp only [processLine]
  split_ifs <;> first
    | (split <;> simp_all)
    | simp_all

/-- C10: at every step of `markdownToHTML`'s line loop — i.e. after folding
`processLine` over any list of lines from the initial state — the
unordered-list and ordered-list flags are never simultaneously true. -/
theorem c10_list_flags_exclusive :
    ∀ lines : List (List Char),
      (((lines.foldl
          (fun p line =>
            let q := processLine p.1 line
            (q.1, p.2 ++ q.2))
          ((⟨false, false, false⟩ : MDState), ([] : List Char))).1.inUL)
        && ((lines.foldl
          (fun p line =>
            let q := processLine p.1 line
            (q.1, p.2 ++ q.2))
          ((⟨false, false, false⟩ : MDState), ([] : List Char))).1.inOL)) = false := by
  have haux : ∀ (lines : List (List Char)) (p : MDState × List Char),
      (p.1.inUL && p.1.inOL) = false →
      (((lines.foldl
          (fun p line =>
            let q := processLine p.1 line
            (q.1, p.2 ++ q.2)) p).1.inUL)
        && ((lines.foldl
          (fun p line =>
            let q := processLine p.1 line
            (q.1, p.2 ++ q.2)) p).1.inOL)) = false := by
    intro lines
    induction lines with
    | nil => intro p h; exact h
    | cons l ls ih =>
      intro p h
      exact ih _ (processLine_flags p.1 l h)
  intro lines
  exact haux lines _ rfl

/-! ## Claim C4 -/

lemma dropWhile_head_false {p : Char → Bool} :
    ∀ {l : List Char} {x : Char} {xs : List Char},
      l.dropWhile p = x :: xs → p x = false := by
  intro l
  induction l with
  | nil => intro x xs h; simp at h
  | cons a t ih =>
    intro x xs h
    by_cases hp : p a
    · rw [List.dropWhile_cons_of_pos hp] at h
      exact ih h
    · rw [List.dropWhile_cons_of_neg hp] at h
      cases h
      simpa using hp

lemma dropWhile_append_last {p : Char → Bool} {x : Char} (hx : p x = false) :
    ∀ l : List Char, ∃ ys, (l ++ [x]).dropWhile p = ys ++ [x] := by
  intro l
  induction l with
  | nil => exact ⟨[], by simp [List.dropWhile, hx]⟩
  | cons a t ih =>
    by_cases hp : p a
    · rcases ih with ⟨ys, hys⟩
      exact ⟨ys, by simp [List.dropWhile_cons_of_pos hp, hys]⟩
    · exact ⟨a :: t, by simp [List.dropWhile_cons_of_neg hp]⟩

lemma trimSpace_head :
    ∀ cs : List Char, trimSpace cs = [] ∨
      ∃ x ys, trimSpace cs = x :: ys ∧ goSpace x = false := by
  intro cs
  unfold trimSpace
  cases hdw : cs.dropWhile goSpace with
  | nil => left; simp
  | cons x xs =>
    right
    have hx : goSpace x = false := dropWhile_head_false hdw
    have hrev : (x :: xs).reverse = xs.reverse ++ [x] := by simp
    rw [hrev]
    rcases dropWhile_append_last hx xs.reverse with ⟨ys, hys⟩
    rw [hys]
    exact ⟨x, ys.reverse, by simp, hx⟩

lemma trimSpace_nonWs {cs : List Char} (h : trimSpace cs ≠ []) :
    ∃ c ∈ trimSpace cs, goSpace c = false := by
  rcases trimSpace_head cs with h0 | ⟨x, ys, heq, hx⟩
  · exact absurd h0 h
  · exact ⟨x, by rw [heq]; exact List.mem_cons_self .., hx⟩

lemma mem_joinLines {c : Char} : ∀ (ls : List (List Char)) (l : List Char),
    l ∈ ls → c ∈ l → c ∈ joinLines ls := by
  intro ls
  induction ls with
  | nil => simp
  | cons a ls ih =>
    intro l hl hc
    cases ls with
    | nil =>
      rcases List.mem_singleton.mp hl with rfl
      simpa [joinLines] using hc
    | cons b ls2 =>
      rcases List.mem_cons.mp hl with rfl | hl2
      · exact List.mem_append.mpr (Or.inl hc)
      · refine List.mem_append.mpr (Or.inr ?_)
        exact List.mem_cons_of_mem _ (ih l hl2 hc)

lemma splitLines_ne_nil : ∀ cs : List Char, splitLines cs ≠ [] := by
  intro cs
  induction cs with
  | nil => simp [splitLines]
  | cons c cs ih =>
    simp only [splitLines]
    split_ifs
    · simp
    · split
      · simp
      · simp

lemma splitLines_head {x : Char} {r : List Char} (hx : ¬ x = '\n') :
    ∃ t ts, splitLines (x :: r) = (x :: t) :: ts := by
  cases h : splitLines r with
  | nil => exact absurd h (splitLines_ne_nil r)
  | cons t ts =>
    refine ⟨t, ts, ?_⟩
    simp only [splitLines, if_neg hx, h]

lemma segStep_inv {st : SegState} (line : List Char)
    (h1 : ∀ s ∈ st.slides, ∃ c ∈ s, goSpace c = false)
    (h2 : st.current ≠ [])
    (h3 : ∃ l ∈ st.current, ∃ c ∈ l, goSpace c = false) :
    (∀ s ∈ (segStep st line).slides, ∃ c ∈ s, goSpace c = false)
    ∧ (segStep st line).current ≠ []
    ∧ (∃ l ∈ (segStep st line).current, ∃ c ∈ l, goSpace c = false) := by
  rcases h3 with ⟨l0, hl0, hc0⟩
  unfold segStep
  split_ifs with hf hh hemp
  · exact ⟨h1, by simp, ⟨l0, List.mem_append.mpr (Or.inl hl0), hc0⟩⟩
  · exact absurd (List.isEmpty_iff.mp hemp) h2
  · have hpre : ("#".data).isPrefixOf line = true := (Bool.and_eq_true ..).mp hh |>.2
    rcases List.isPrefixOf_iff_prefix.mp hpre with ⟨t, ht⟩
    refine ⟨?_, by simp, ⟨line, by simp, ⟨'#', ?_, by decide⟩⟩⟩
    · intro s hs
      have hs2 : s ∈ st.slides ++ [joinLines st.current] := hs
      rcases List.mem_append.mp hs2 with hs3 | hs3
      · exact h1 s hs3
      · rcases List.mem_singleton.mp hs3 with rfl
        rcases hc0 with ⟨c, hcl, hcw⟩
        exact ⟨c, mem_joinLines st.current l0 hl0 hcl, hcw⟩
    · rw [← ht]
      simp
  · exact ⟨h1, by simp, ⟨l0, List.mem_append.mpr (Or.inl hl0), hc0⟩⟩

lemma segFold_inv :
    ∀ (lines : List (List Char)) (st : SegState),
      (∀ s ∈ st.slides, ∃ c ∈ s, goSpace c = false) →
      st.current ≠ [] →
      (∃ l ∈ st.current, ∃ c ∈ l, goSpace c = false) →
      (∀ s ∈ (lines.foldl segStep st).slides, ∃ c ∈ s, goSpace c = false)
      ∧ (lines.foldl segStep st).current ≠ []
      ∧ (∃ l ∈ (lines.foldl segStep st).current, ∃ c ∈ l, goSpace c = false) := by
  intro lines
  induction lines with
  | nil => intro st h1 h2 h3; exact ⟨h1, h2, h3⟩
  | cons l ls ih =>
    intro st h1 h2 h3
    rcases segStep_inv l h1 h2 h3 with ⟨g1, g2, g3⟩
    exact ih _ g1 g2 g3

lemma segStep_init {line : List Char} (hl : ∃ c ∈ line, goSpace c = false) :
    (∀ s ∈ (segStep ⟨[], [], false⟩ line).slides, ∃ c ∈ s, goSpace c = false)
    ∧ (segStep ⟨[], [], false⟩ line).current ≠ []
    ∧ (∃ l2 ∈ (segStep ⟨[], [], false⟩ line).current, ∃ c ∈ l2, goSpace c = false) := by
  unfold segStep
  split_ifs with hf hh hemp
  · exact ⟨by simp, by simp, ⟨line, by simp, hl⟩⟩
  · exact ⟨by simp, by simp, ⟨line, by simp, hl⟩⟩
  · exact absurd rfl hemp
  · exact ⟨by simp, by simp, ⟨line, by simp, hl⟩⟩

/-- C4 (counterexample): for an all-whitespace body the fallback path of
`parseMarkdown` returns one whitespace-only (empty) slide rather than
discarding it. -/
theorem c4_counterexample :
    parseMarkdown (" \n ".data) = [[]]
    ∧ ¬ (∀ s ∈ parseMarkdown (" \n ".data), ∃ c ∈ s, goSpace c = false) :=
  ⟨by decide, by decide⟩

/-- C4 (amended): for every body whose trimmed form is non-empty, every
slide returned by `parseMarkdown` contains at least one non-whitespace
character; an empty or all-whitespace body instead yields exactly one empty
slide (see the counterexample). -/
theorem c4_nonblank_slides :
    ∀ body : List Char, trimSpace body ≠ [] →
      ∀ s ∈ parseMarkdown body, ∃ c ∈ s, goSpace c = false := by
  intro body hne s hs
  revert hs
  simp only [parseMarkdown]
  split
  · -- fallback path
    intro hs
    rcases trimSpace_head body with h0 | ⟨x, ys, heq, hx⟩
    · exact absurd h0 hne
    · have hxn : ¬ x = '\n' := fun he => by simp [he] at hx; exact absurd hx (by decide)
      rcases @splitLines_head x ys hxn with ⟨t, ts, hsl⟩
      rw [heq, hsl] at hs
      rw [List.foldl_cons] at hs
      have hinit := @segStep_init (x :: t) ⟨x, List.mem_cons_self .., hx⟩
      rcases segFold_inv ts _ hinit.1 hinit.2.1 hinit.2.2 with ⟨g1, g2, g3⟩
      rcases List.mem_append.mp hs with hs | hs
      · exact g1 s hs
      · rw [if_neg (by simpa using g2)] at hs
        rcases List.mem_singleton.mp hs with rfl
        rcases g3 with ⟨l0, hl0, c, hcl, hcw⟩
        exact ⟨c, mem_joinLines _ l0 hl0 hcl, hcw⟩
  · -- separator path
    intro hs
    rcases List.mem_filter.mp hs with ⟨hmem, hpred⟩
    rcases List.mem_map.mp hmem with ⟨p, -, rfl⟩
    exact trimSpace_nonWs (by simpa using hpred)

/-- Witness for C4 (amended): a two-slide heading document. -/
theorem c4_witness :
    trimSpace ("# A\nbody".data) ≠ []
    ∧ ∀ s ∈ parseMarkdown ("# A\nbody".data), ∃ c ∈ s, goSpace c = false :=
  ⟨by decide, fun s hs => c4_nonblank_slides ("# A\nbody".data) (by decide) s hs⟩

/-! ## Branch equations for `processLine` -/

lemma prefix2_cases {a b : Char} {l : List Char} (h : ([a, b]).isPrefixOf l = true) :
    ∃ t, l = a :: b :: t := by
  rcases List.isPrefixOf_iff_prefix.mp h with ⟨t, ht⟩
  exact ⟨t, ht.symm⟩

lemma processLine_fence_eq (st : MDState) (line : List Char)
    (hfence : ("```".data).isPrefixOf (trimSpace line) = true) :
    processLine st line =
      (⟨!st.inCodeBlock, false, false⟩,
        (if st.inUL then "</ul>\n".data else [])
        ++ (if st.inOL then "</ol>\n".data else [])
        ++ (if st.inCodeBlock then "</code></pre>".data else "<pre><code>".data)) := by
  simp only [processLine]
  rw [if_pos hfence]

lemma processLine_heading_eq (st : MDState) (line : List Char)
    (hcode : st.inCodeBlock = false)
    (hfence : ("```".data).isPrefixOf (trimSpace line) = false)
    (hpre : ("#".data).isPrefixOf (trimSpace line) = true)
    (hlvl : ((trimSpace line).takeWhile (· == '#')).length ≤ 6) :
    processLine st line =
      (st, "<h".data ++ (Nat.repr ((trimSpace line).takeWhile (· == '#')).length).data
        ++ ">".data
        ++ parseInline (trimSpace ((trimSpace line).drop
            ((trimSpace line).takeWhile (· == '#')).length))
        ++ "</h".data ++ (Nat.repr ((trimSpace line).takeWhile (· == '#')).length).data
        ++ ">\n".data) := by
  simp only [processLine]
  rw [if_neg (by simp [hfence]), if_neg (by simp [hcode]), if_pos ⟨hpre, hlvl⟩]

lemma processLine_hr_eq (st : MDState) (line : List Char)
    (hcode : st.inCodeBlock = false)
    (hfence : ("```".data).isPrefixOf (trimSpace line) = false)
    (hhr : trimSpace line = "---".data ∨ trimSpace line = "***".data
      ∨ trimSpace line = "___".data) :
    processLine st line = (st, "<hr>\n".data) := by
  simp only [processLine]
  rw [if_neg (by simp [hfence]), if_neg (by simp [hcode]),
    if_neg (by rcases hhr with h | h | h <;> rw [h] <;> decide), if_pos hhr]

lemma processLine_ul_eq (st : MDState) (line : List Char)
    (hcode : st.inCodeBlock = false)
    (hfence : ("```".data).isPrefixOf (trimSpace line) = false)
    (hhead : ¬ (("#".data).isPrefixOf (trimSpace line) = true
      ∧ ((trimSpace line).takeWhile (· == '#')).length ≤ 6))
    (hhr : ¬ (trimSpace line = "---".data ∨ trimSpace line = "***".data
      ∨ trimSpace line = "___".data))
    (hul : ("- ".data).isPrefixOf (trimSpace line) = true
      ∨ ("* ".data).isPrefixOf (trimSpace line) = true) :
    processLine st line =
      (⟨st.inCodeBlock, true, false⟩,
        (if st.inOL then "</ol>\n".data else [])
        ++ (if !st.inUL then "<ul>\n".data else [])
        ++ "<li>".data
        ++ parseInline (dropPrefixIf ("* ".data) (dropPrefixIf ("- ".data) (trimSpace line)))
        ++ "</li>\n".data) := by
  simp only [processLine]
  rw [if_neg (by simp [hfence]), if_neg (by simp [hcode]), if_neg hhead, if_neg hhr,
    if_pos (by simpa using hul)]

lemma processLine_ol_eq (st : MDState) (line : List Char) (d r : List Char)
    (hcode : st.inCodeBlock = false)
    (hfence : ("```".data).isPrefixOf (trimSpace line) = false)
    (hhead : ¬ (("#".data).isPrefixOf (trimSpace line) = true
      ∧ ((trimSpace line).takeWhile (· == '#')).length ≤ 6))
    (hhr : ¬ (trimSpace line = "---".data ∨ trimSpace line = "***".data
      ∨ trimSpace line = "___".data))
    (hul : ¬ (("- ".data).isPrefixOf (trimSpace line) = true
      ∨ ("* ".data).isPrefixOf (trimSpace line) = true))
    (hord : orderedMatch (trimSpace line) = some (d, r)) :
    processLine st line =
      (⟨st.inCodeBlock, false, true⟩,
        (if st.inUL then "</ul>\n".data else [])
        ++ (if !st.inOL then "<ol>\n".data else [])
        ++ "<li>".data ++ parseInline r ++ "</li>\n".data) := by
  simp only [processLine]
  rw [if_neg (by simp [hfence]), if_neg (by simp [hcode]), if_neg hhead, if_neg hhr,
    if_neg (by simpa using hul), hord]

lemma processLine_blank_eq (st : MDState) (line : List Char)
    (hcode : st.inCodeBlock = false)
    (htrim : trimSpace line = []) :
    processLine st line = (st, []) := by
  simp only [processLine]
  rw [htrim]
  simp [hcode, orderedMatch]

lemma processLine_para_eq (st : MDState) (line : List Char)
    (hcode : st.inCodeBlock = false)
    (hfence : ("```".data).isPrefixOf (trimSpace line) = false)
    (hhead : ¬ (("#".data).isPrefixOf (trimSpace line) = true
      ∧ ((trimSpace line).takeWhile (· == '#')).length ≤ 6))
    (hhr : ¬ (trimSpace line = "---".data ∨ trimSpace line = "***".data
      ∨ trimSpace line = "___".data))
    (hul : ¬ (("- ".data).isPrefixOf (trimSpace line) = true
      ∨ ("* ".data).isPrefixOf (trimSpace line) = true))
    (hord : orderedMatch (trimSpace line) = none)
    (hne : (trimSpace line).isEmpty = false) :
    processLine st line =
      (⟨st.inCodeBlock, false, false⟩,
        (if st.inUL then "</ul>\n".data else [])
        ++ (if st.inOL then "</ol>\n".data else [])
        ++ "<p>".data ++ parseInline (trimSpace line) ++ "</p>\n".data) := by
  simp only [processLine]
  rw [if_neg (by simp [hfence]), if_neg (by simp [hcode]), if_neg hhead, if_neg hhr,
    if_neg (by simpa using hul), hord]
  simp [hne]

/-! ## Claim C7 -/

/-- C7 (counterexample): for the line `- * x` the code removes *both*
two-character prefixes (`strings.TrimPrefix` is applied twice in sequence),
so the item content is `x`, not the claim's `* x` (the line with exactly the
one matched prefix `- ` removed). -/
theorem c7_counterexample :
    markdownToHTML ("- * x".data)
      = ("<ul>\n<li>".data ++ parseInline ("x".data) ++ "</li>\n</ul>\n".data)
    ∧ markdownToHTML ("- * x".data)
      ≠ ("<ul>\n<li>".data ++ parseInline ("* x".data) ++ "</li>\n</ul>\n".data) :=
  ⟨by decide, by decide⟩

/-- C7 (amended): for every non-code line whose trimmed form starts with
`- ` or `* `, any open ordered list is closed, an unordered list is opened if
none is open, and the emitted `<li>` wraps the inline transform of the
trimmed line with a leading `- ` removed if present and then a leading `* `
removed if present (both removals may fire, as for `- * x`). -/
theorem c7_unordered_item :
    ∀ (st : MDState) (line : List Char),
      st.inCodeBlock = false →
      (("- ".data).isPrefixOf (trimSpace line) = true
        ∨ ("* ".data).isPrefixOf (trimSpace line) = true) →
      processLine st line =
        (⟨st.inCodeBlock, true, false⟩,
          (if st.inOL then "</ol>\n".data else [])
          ++ (if !st.inUL then "<ul>\n".data else [])
          ++ "<li>".data
          ++ parseInline (dropPrefixIf ("* ".data) (dropPrefixIf ("- ".data) (trimSpace line)))
          ++ "</li>\n".data) := by
  intro st line hcode hul
  have hshape : (∃ t, trimSpace line = '-' :: ' ' :: t)
      ∨ (∃ t, trimSpace line = '*' :: ' ' :: t) := by
    rcases hul with h | h
    · exact Or.inl (prefix2_cases h)
    · exact Or.inr (prefix2_cases h)
  have hfence : ("```".data).isPrefixOf (trimSpace line) = false := by
    rcases hshape with ⟨t, ht⟩ | ⟨t, ht⟩ <;> rw [ht] <;>
      simp +decide [List.isPrefixOf]
  have hhead : ¬ (("#".data).isPrefixOf (trimSpace line) = true
      ∧ ((trimSpace line).takeWhile (· == '#')).length ≤ 6) := by
    rintro ⟨hc, -⟩
    rcases hshape with ⟨t, ht⟩ | ⟨t, ht⟩ <;> rw [ht] at hc <;>
      simp +decide [List.isPrefixOf] at hc
  have hhr : ¬ (trimSpace line = "---".data ∨ trimSpace line = "***".data
      ∨ trimSpace line = "___".data) := by
    rintro (hc | hc | hc) <;> rcases hshape with ⟨t, ht⟩ | ⟨t, ht⟩ <;>
      rw [ht] at hc <;> simp at hc
  exact processLine_ul_eq st line hcode hfence hhead hhr hul

/-- Witness for C7: an unordered item arriving while an ordered list is
open closes the ordered list first. -/
theorem c7_witness :
    processLine ⟨false, false, true⟩ ("- a".data) =
      (⟨false, true, false⟩, "</ol>\n<ul>\n<li>a</li>\n".data) := by
  rw [c7_unordered_item ⟨false, false, true⟩ ("- a".data) rfl (Or.inl (by decide))]
  decide

/-! ## Claim C6 -/

/-- C6 (counterexample): `#foo` — whose `#` is *not* followed by whitespace —
is nevertheless rendered as the heading `<h1>foo</h1>`, refuting the
"followed by whitespace" part of the claim. -/
theorem c6_counterexample :
    markdownToHTML ("#foo".data) = ("<h1>foo</h1>\n".data)
    ∧ ((trimSpace ("#foo".data)).takeWhile (· == '#')).length = 1
    ∧ (((trimSpace ("#foo".data)).drop 1).head?.all (fun c => !goSpace c)) = true :=
  ⟨by decide, by decide, by decide⟩

/-- C6 (amended): outside a code block, a non-fence line is rendered as a
heading exactly when its trimmed form starts with `#` and its run of leading
`#` characters has length at most 6 (no whitespace after the `#`s is
required); the emitted tag is `<hN>…</hN>` with `N` the number of leading
`#`s, wrapping the inline-transformed trimmed remainder. -/
theorem c6_heading_iff :
    ∀ (st : MDState) (line : List Char),
      st.inCodeBlock = false →
      ("```".data).isPrefixOf (trimSpace line) = false →
      (processLine st line =
        (st, "<h".data ++ (Nat.repr ((trimSpace line).takeWhile (· == '#')).length).data
          ++ ">".data
          ++ parseInline (trimSpace ((trimSpace line).drop
              ((trimSpace line).takeWhile (· == '#')).length))
          ++ "</h".data ++ (Nat.repr ((trimSpace line).takeWhile (· == '#')).length).data
          ++ ">\n".data)
      ↔ (("#".data).isPrefixOf (trimSpace line) = true
          ∧ ((trimSpace line).takeWhile (· == '#')).length ≤ 6)) := by
  intro st line hcode hfence
  constructor
  · intro heq
    by_contra hcond
    by_cases hhr : (trimSpace line = "---".data ∨ trimSpace line = "***".data
        ∨ trimSpace line = "___".data)
    · rw [processLine_hr_eq st line hcode hfence hhr, Prod.mk.injEq] at heq
      have h2 := heq.2
      rcases hhr with h | h | h <;> rw [h] at h2 <;> exact absurd h2 (by decide)
    · by_cases hul : (("- ".data).isPrefixOf (trimSpace line) = true
          ∨ ("* ".data).isPrefixOf (trimSpace line) = true)
      · rw [processLine_ul_eq st line hcode hfence hcond hhr hul, Prod.mk.injEq] at heq
        have h2 := heq.2
        rcases Bool.eq_false_or_eq_true st.inOL with ho | ho <;>
          rcases Bool.eq_false_or_eq_true st.inUL with hu | hu <;>
            simp [ho, hu] at h2
      · cases hord : orderedMatch (trimSpace line) with
        | none =>
          by_cases hblank : (trimSpace line).isEmpty = true
          · rw [processLine_blank_eq st line hcode (List.isEmpty_iff.mp hblank),
              Prod.mk.injEq] at heq
            have h2 := heq.2
            simp at h2
          · rw [processLine_para_eq st line hcode hfence hcond hhr hul hord
              (Bool.eq_false_iff.mpr hblank), Prod.mk.injEq] at heq
            have h2 := heq.2
            rcases Bool.eq_false_or_eq_true st.inOL with ho | ho <;>
              rcases Bool.eq_false_or_eq_true st.inUL with hu | hu <;>
                simp [ho, hu] at h2
        | some dr =>
          rcases dr with ⟨d, r⟩
          rw [processLine_ol_eq st line d r hcode hfence hcond hhr hul hord,
            Prod.mk.injEq] at heq
          have h2 := heq.2
          rcases Bool.eq_false_or_eq_true st.inOL with ho | ho <;>
            rcases Bool.eq_false_or_eq_true st.inUL with hu | hu <;>
              simp [ho, hu] at h2
  · intro hc
    exact processLine_heading_eq st line hcode hfence hc.1 hc.2

/-- Witness for C6: `## x` renders as an `<h2>` heading with the state
unchanged. -/
theorem c6_witness :
    processLine ⟨false, false, false⟩ ("## x".data) =
      (⟨false, false, false⟩, "<h2>x</h2>\n".data) := by
  rw [(c6_heading_iff ⟨false, false, false⟩ ("## x".data) rfl (by decide)).mpr
    ⟨by decide, by decide⟩]
  decide

/-! ## Structure of the regex-pass scanners -/

lemma suffix_of_cons {x : Char} {l y : List Char} (h : (x :: l) <:+ y) : l <:+ y := by
  rcases h with ⟨s, rfl⟩
  exact ⟨s ++ [x], by simp⟩

lemma imageAux_skip : ∀ (k : Nat) (cs : List Char), imageAux k cs = imageAux 0 (cs.drop k) := by
  intro k
  induction k with
  | zero => intro cs; rfl
  | succ k ih =>
    intro cs
    cases cs with
    | nil => rfl
    | cons c cs => exact ih cs

lemma tryImage_none_head {c : Char} {cs : List Char} (hc : ¬ c = '!') :
    tryImage (c :: cs) = none := by
  unfold tryImage
  split <;> simp_all

lemma tryImage_inv {cs r : List Char} {len : Nat} (h : tryImage cs = some (r, len)) :
    ∃ alt tgt, r = imgTag alt tgt ∧ alt <:+: cs ∧ tgt <:+: cs ∧ 1 ≤ len := by
  match cs with
  | [] => simp [tryImage] at h
  | [c] =>
    unfold tryImage at h
    split at h
    · simp_all
    · cases h
  | c :: c2 :: cs' =>
    by_cases h1 : c = '!'
    · subst h1
      by_cases h2 : c2 = '['
      · subst h2
        unfold tryImage at h
        split at h
        · next rest heq =>
          have hcr : cs' = rest := by
            injection heq with h3 heq
            injection heq with h4 heq
          subst hcr
          dsimp only [] at h
          have haltinf : cs'.takeWhile (· != ']') <:+: '!' :: '[' :: cs' :=
            ((List.takeWhile_prefix _).isInfix).trans
              (List.infix_cons (List.infix_cons List.infix_rfl))
          split at h
          · next rest2 heq2 =>
            have hrest2 : rest2 <:+ cs' :=
              suffix_of_cons (suffix_of_cons (heq2 ▸ List.drop_suffix _ _))
            rw [if_neg] at h
            · split at h
              · next heq3 =>
                injection h with h5
                injection h5 with hr hlen
                refine ⟨_, _, hr.symm, haltinf, ?_, by omega⟩
                exact ((List.takeWhile_prefix _).isInfix.trans hrest2.isInfix).trans
                  (List.infix_cons (List.infix_cons List.infix_rfl))
              · cases h
            · intro hemp
              rw [if_pos hemp] at h
              cases h
          · cases h
        · cases h
      · have : tryImage ('!' :: c2 :: cs') = none := by
          unfold tryImage
          split <;> simp_all
        rw [this] at h
        cases h
    · rw [tryImage_none_head h1] at h
      cases h

lemma imageAux_zero_cons (c : Char) (cs : List Char) :
    imageAux 0 (c :: cs) = (match tryImage (c :: cs) with
      | some (r, len) => r ++ imageAux (len - 1) cs
      | none => c :: imageAux 0 cs) := rfl

lemma linkAux_skip : ∀ (k : Nat) (cs : List Char), linkAux k cs = linkAux 0 (cs.drop k) := by
  intro k
  induction k with
  | zero => intro cs; rfl
  | succ k ih =>
    intro cs
    cases cs with
    | nil => rfl
    | cons c cs => exact ih cs

lemma linkAux_zero_cons (c : Char) (cs : List Char) :
    linkAux 0 (c :: cs) = (match tryLink (c :: cs) with
      | some (r, len) => r ++ linkAux (len - 1) cs
      | none => c :: linkAux 0 cs) := rfl

lemma tryLink_none_head {c : Char} {cs : List Char} (hc : ¬ c = '[') :
    tryLink (c :: cs) = none := by
  unfold tryLink
  split <;> simp_all

lemma tryLink_inv {cs r : List Char} {len : Nat} (h : tryLink cs = some (r, len)) :
    ∃ label tgt, r = aTag label tgt ∧ label <:+: cs ∧ tgt <:+: cs ∧ 1 ≤ len := by
  match cs with
  | [] => simp [tryLink] at h
  | c :: cs' =>
    by_cases h1 : c = '['
    · subst h1
      unfold tryLink at h
      split at h
      · next rest heq =>
        have hcr : cs' = rest := by injection heq with h3 heq
        subst hcr
        dsimp only [] at h
        split_ifs at h with hlab
        have hlabinf : cs'.takeWhile (· != ']') <:+: '[' :: cs' :=
          ((List.takeWhile_prefix _).isInfix).trans (List.infix_cons List.infix_rfl)
        split at h
        · next rest2 heq2 =>
          have hrest2 : rest2 <:+ cs' :=
            suffix_of_cons (suffix_of_cons (heq2 ▸ List.drop_suffix _ _))
          split_ifs at h with htgt
          split at h
          · next heq3 =>
            injection h with h5
            injection h5 with hr hlen
            refine ⟨_, _, hr.symm, hlabinf, ?_, by omega⟩
            exact ((List.takeWhile_prefix _).isInfix.trans hrest2.isInfix).trans
              (List.infix_cons List.infix_rfl)
          · cases h
        · cases h
      · cases h
    · rw [tryLink_none_head h1] at h
      cases h

lemma boldAux_skip : ∀ (k : Nat) (cs : List Char), boldAux k cs = boldAux 0 (cs.drop k) := by
  intro k
  induction k with
  | zero => intro cs; rfl
  | succ k ih =>
    intro cs
    cases cs with
    | nil => rfl
    | cons c cs => exact ih cs

lemma boldAux_zero_cons (c : Char) (cs : List Char) :
    boldAux 0 (c :: cs) = (match tryBold (c :: cs) with
      | some (r, len) => r ++ boldAux (len - 1) cs
      | none => c :: boldAux 0 cs) := rfl

lemma tryBold_none_head {c : Char} {cs : List Char} (hc : ¬ c = '*') :
    tryBold (c :: cs) = none := by
  unfold tryBold
  split <;> simp_all

lemma tryBold_inv {cs r : List Char} {len : Nat} (h : tryBold cs = some (r, len)) :
    ∃ content, r = "<strong>".data ++ content ++ "</strong>".data
      ∧ content <:+: cs ∧ 1 ≤ len := by
  match cs with
  | [] => simp [tryBold] at h
  | [c] =>
    unfold tryBold at h
    split at h
    · simp_all
    · cases h
  | c :: c2 :: cs' =>
    by_cases h1 : c = '*'
    · subst h1
      by_cases h2 : c2 = '*'
      · subst h2
        unfold tryBold at h
        split at h
        · next rest heq =>
          have hcr : cs' = rest := by
            injection heq with h3 heq
            injection heq with h4 heq
          subst hcr
          dsimp only [] at h
          split_ifs at h with hcon
          split at h
          · next heq2 =>
            injection h with h5
            injection h5 with hr hlen
            refine ⟨_, hr.symm, ?_, by omega⟩
            exact ((List.takeWhile_prefix _).isInfix).trans
              (List.infix_cons (List.infix_cons List.infix_rfl))
          · cases h
        · cases h
      · have hn : tryBold ('*' :: c2 :: cs') = none := by
          unfold tryBold
          split <;> simp_all
        rw [hn] at h
        cases h
    · rw [tryBold_none_head h1] at h
      cases h

lemma italicAux_skip : ∀ (k : Nat) (b : Bool) (cs : List Char),
    italicAux b (k+1) cs = italicAux false 0 (cs.drop (k+1)) := by
  intro k
  induction k with
  | zero =>
    intro b cs
    cases cs with
    | nil => rfl
    | cons c cs => rfl
  | succ k ih =>
    intro b cs
    cases cs with
    | nil => rfl
    | cons c cs => exact ih false cs

lemma italicAux_zero_cons (b : Bool) (c : Char) (cs : List Char) :
    italicAux b 0 (c :: cs) = (match tryItalic b (c :: cs) with
      | some (r, len) => r ++ italicAux false (len - 1) cs
      | none => c :: italicAux false 0 cs) := rfl

lemma regexSpace_cases {c : Char} (h : regexSpace c = true) :
    c = ' ' ∨ c = '\t' ∨ c = '\n' ∨ c = '\x0c' ∨ c = '\r' := by
  simpa [regexSpace, or_assoc] using h

lemma regexSpace_ne_lt {c : Char} (h : regexSpace c = true) : ¬ c = '<' := by
  rcases regexSpace_cases h with rfl | rfl | rfl | rfl | rfl <;> decide

lemma regexSpace_ne_slash {c : Char} (h : regexSpace c = true) : ¬ c = '/' := by
  rcases regexSpace_cases h with rfl | rfl | rfl | rfl | rfl <;> decide

lemma tryItalicCore_inv {cs r : List Char} {len : Nat}
    (h : tryItalicCore cs = some (r, len)) :
    ∃ content tail, r = "<em>".data ++ content ++ "</em>".data ++ tail
      ∧ content <:+: cs ∧ 1 ≤ len
      ∧ (tail = [] ∨ ∃ sp, tail = [sp] ∧ regexSpace sp = true) := by
  match cs with
  | [] => simp [tryItalicCore] at h
  | c :: cs' =>
    by_cases h1 : c = '*'
    · subst h1
      unfold tryItalicCore at h
      split at h
      · next rest heq =>
        have hcr : cs' = rest := by injection heq with h3 heq
        subst hcr
        dsimp only [] at h
        split_ifs at h with hcon
        have hconinf : cs'.takeWhile (fun c => c != '*' && c != '\n') <:+: '*' :: cs' :=
          ((List.takeWhile_prefix _).isInfix).trans (List.infix_cons List.infix_rfl)
        split at h
        · next rest2 heq2 =>
          match rest2, h with
          | [], h =>
            injection h with h5
            injection h5 with hr hlen
            exact ⟨_, [], by rw [← hr]; simp, hconinf, by omega, Or.inl rfl⟩
          | c2 :: rest3, h =>
            rw [show (match c2 :: rest3 with
              | [] => some ("<em>".data ++ cs'.takeWhile (fun c => c != '*' && c != '\n')
                  ++ "</em>".data, (cs'.takeWhile (fun c => c != '*' && c != '\n')).length + 2)
              | c :: _ =>
                if regexSpace c then
                  some ("<em>".data ++ cs'.takeWhile (fun c => c != '*' && c != '\n')
                    ++ "</em>".data ++ [c],
                    (cs'.takeWhile (fun c => c != '*' && c != '\n')).length + 3)
                else none) =
              (if regexSpace c2 then
                some ("<em>".data ++ cs'.takeWhile (fun c => c != '*' && c != '\n')
                  ++ "</em>".data ++ [c2],
                  (cs'.takeWhile (fun c => c != '*' && c != '\n')).length + 3)
               else none) from rfl] at h
            split_ifs at h with hsp
            injection h with h5
            injection h5 with hr hlen
            exact ⟨_, [c2], hr.symm, hconinf, by omega, Or.inr ⟨c2, rfl, hsp⟩⟩
        · cases h
      · cases h
    · have hn : tryItalicCore (c :: cs') = none := by
        unfold tryItalicCore
        split <;> simp_all
      rw [hn] at h
      cases h

lemma tryItalic_inv {b : Bool} {cs r : List Char} {len : Nat}
    (h : tryItalic b cs = some (r, len)) :
    ∃ content tail, content <:+: cs ∧ 1 ≤ len
      ∧ ((r = "<em>".data ++ content ++ "</em>".data ++ tail)
          ∨ (∃ sp rest0, cs = sp :: rest0 ∧ regexSpace sp = true
              ∧ r = sp :: ("<em>".data ++ content ++ "</em>".data ++ tail)))
      ∧ (tail = [] ∨ ∃ sp2, tail = [sp2] ∧ regexSpace sp2 = true) := by
  match cs with
  | [] => simp [tryItalic] at h
  | c :: cs' =>
    unfold tryItalic at h
    dsimp only [] at h
    split_ifs at h with hstar hsp
    · rcases tryItalicCore_inv h with ⟨content, tail, hr, hinf, hlen, htail⟩
      exact ⟨content, tail, hinf, hlen, Or.inl hr, htail⟩
    · rcases hcore : tryItalicCore cs' with - | ⟨rc, lc⟩
      · rw [hcore] at h
        cases h
      · rw [hcore] at h
        injection h with h5
        injection h5 with hr hlen
        rcases tryItalicCore_inv hcore with ⟨content, tail, hrc, hinf, hlc, htail⟩
        refine ⟨content, tail, hinf.trans (List.infix_cons List.infix_rfl), by omega,
          Or.inr ⟨c, cs', rfl, hsp, ?_⟩, htail⟩
        rw [← hr, hrc]

/-! ## The emitted tags contain no list-closing substring -/

lemma wrap_noPat {w : Char} (hw : w = 'u' ∨ w = 'o') (L R content : List Char)
    (hL : hasSub ['<', '/', w] L = false)
    (hR : hasSub ['<', '/', w] R = false)
    (hc : hasSub ['<', '/', w] content = false)
    (hLlast : L.getLast? ≠ some '<')
    (hLsuf : ¬ ['<', '/'] <:+ L)
    (hRhead : ∀ y t, R = y :: t → y = '<') :
    hasSub ['<', '/', w] (L ++ content ++ R) = false := by
  apply hasSub3_append_false
  · apply hasSub3_append_false hL hc
    · exact fun hp hl => hLlast hl
    · exact fun hp hs => hLsuf hs
  · exact hR
  · intro hp hl
    cases R with
    | nil => simp at hp
    | cons y t => exact absurd ((hRhead y t rfl) ▸ prefix_pair_head hp) (by decide)
  · intro hp hs
    cases R with
    | nil => simp at hp
    | cons y t =>
      have := (hRhead y t rfl) ▸ prefix_single_head hp
      rcases hw with rfl | rfl <;> simp_all

lemma normalize_noPat {w : Char} {tgt : List Char}
    (h : hasSub ['<', '/', w] tgt = false) :
    hasSub ['<', '/', w] (normalizeAssetPath tgt) = false := by
  simp only [normalizeAssetPath]
  split_ifs
  · exact h
  · apply hasSub3_append_false (by simp +decide [hasSub, List.isPrefixOf]) h
    · intro hp hl
      exact absurd hl (by decide)
    · intro hp hs
      exact absurd hs (by decide)

lemma imgTag_noPat {w : Char} (hw : w = 'u' ∨ w = 'o') {alt tgt : List Char}
    (halt : hasSub ['<', '/', w] alt = false)
    (htgt : hasSub ['<', '/', w] tgt = false) :
    hasSub ['<', '/', w] (imgTag alt tgt) = false := by
  unfold imgTag
  rw [show ("<img src=\"".data ++ normalizeAssetPath tgt ++ "\" alt=\"".data ++ alt
      ++ "\"/>".data : List Char)
    = ("<img src=\"".data ++ normalizeAssetPath tgt) ++ (("\" alt=\"".data ++ alt)
      ++ "\"/>".data) from by simp [List.append_assoc]]
  apply hasSub3_append_false
  · apply hasSub3_append_false (by simp +decide [hasSub, List.isPrefixOf])
      (normalize_noPat htgt)
    · intro hp hl
      exact absurd hl (by decide)
    · intro hp hs
      exact absurd hs (by decide)
  · apply hasSub3_append_false
    · apply hasSub3_append_false (by simp +decide [hasSub, List.isPrefixOf]) halt
      · intro hp hl
        exact absurd hl (by decide)
      · intro hp hs
        exact absurd hs (by decide)
    · simp +decide [hasSub, List.isPrefixOf]
    · intro hp hl
      exact absurd (prefix_pair_head hp) (by decide)
    · intro hp hs
      have := prefix_single_head hp
      rcases hw with rfl | rfl <;> simp_all
  · intro hp hl
    cases hq : ("\" alt=\"".data ++ alt) ++ "\"/>".data with
    | nil => simp at hq
    | cons y t =>
      have hy : y = '"' := by
        have := congrArg List.head? hq
        simpa using this.symm
      rw [hq] at hp
      exact absurd (hy ▸ prefix_pair_head hp) (by decide)
  · intro hp hs
    cases hq : ("\" alt=\"".data ++ alt) ++ "\"/>".data with
    | nil => simp at hq
    | cons y t =>
      have hy : y = '"' := by
        have := congrArg List.head? hq
        simpa using this.symm
      rw [hq] at hp
      have := hy ▸ prefix_single_head hp
      rcases hw with rfl | rfl <;> simp_all

lemma w_ne_letters {w : Char} (hw : w = 'u' ∨ w = 'o') :
    ¬ w = 'a' ∧ ¬ w = 's' ∧ ¬ w = 'e' ∧ ¬ w = 'c' ∧ ¬ w = 'h'
      ∧ ¬ w = '<' ∧ ¬ w = '>' ∧ ¬ w = '"' := by
  rcases hw with rfl | rfl <;> refine ⟨?_, ?_, ?_, ?_, ?_, ?_, ?_, ?_⟩ <;> decide

lemma prefix_pair_head_append {x y d : Char} {l₁ l₂ : List Char} (hne : ¬ x = d)
    (h : [x, y] <+: ((d :: l₁) ++ l₂)) : False := by
  rw [List.cons_append] at h
  exact hne (prefix_pair_head h)

lemma prefix_single_head_append {x d : Char} {l₁ l₂ : List Char} (hne : ¬ x = d)
    (h : [x] <+: ((d :: l₁) ++ l₂)) : False := by
  rw [List.cons_append] at h
  exact hne (prefix_single_head h)

lemma getLast?_append_concrete {l₁ : List Char} {c : Char} {l₂ : List Char}
    (h : l₂.getLast? = some c) (hne : l₂ ≠ []) : (l₁ ++ l₂).getLast? = some c := by
  rw [List.getLast?_append_of_ne_nil l₁ hne, h]

lemma aTag_noPat {w : Char} (hw : w = 'u' ∨ w = 'o') {label tgt : List Char}
    (hlab : hasSub ['<', '/', w] label = false)
    (htgt : hasSub ['<', '/', w] tgt = false) :
    hasSub ['<', '/', w] (aTag label tgt) = false := by
  obtain ⟨hwa, hws, hwe, hwc, hwh, hwlt, hwgt, hwq⟩ := w_ne_letters hw
  unfold aTag
  rw [show ("<a href=\"".data ++ normalizeAssetPath tgt ++ "\">".data ++ label
      ++ "</a>".data : List Char)
    = ("<a href=\"".data ++ normalizeAssetPath tgt)
      ++ ("\">".data ++ (label ++ "</a>".data)) from by simp [List.append_assoc]]
  apply hasSub3_append_false
  · apply hasSub3_append_false (by simp +decide [hasSub, List.isPrefixOf])
      (normalize_noPat htgt)
    · intro hp hl
      exact absurd hl (by decide)
    · intro hp hs
      exact absurd hs (by decide)
  · apply hasSub3_append_false
    · simp +decide [hasSub, List.isPrefixOf]
    · apply hasSub3_append_false hlab
      · simp +decide [hasSub, List.isPrefixOf, beq_iff_eq, hwa]
      · intro hp hl
        exact absurd (prefix_pair_head hp) (by decide)
      · intro hp hs
        exact absurd (prefix_single_head hp) hwlt
    · intro hp hl
      exact absurd hl (by decide)
    · intro hp hs
      exact absurd hs (by decide)
  · intro hp hl
    exact prefix_pair_head_append (by decide) hp
  · intro hp hs
    exact prefix_single_head_append hwq hp

lemma strongTag_noPat {w : Char} (hw : w = 'u' ∨ w = 'o') {content : List Char}
    (hc : hasSub ['<', '/', w] content = false) :
    hasSub ['<', '/', w] ("<strong>".data ++ content ++ "</strong>".data) = false := by
  obtain ⟨hwa, hws, hwe, hwc, hwh, hwlt, hwgt, hwq⟩ := w_ne_letters hw
  apply wrap_noPat hw
  · simp +decide [hasSub, List.isPrefixOf]
  · simp +decide [hasSub, List.isPrefixOf, beq_iff_eq, hws]
  · exact hc
  · decide
  · decide
  · intro y t ht
    have := congrArg List.head? ht
    simpa using this.symm

lemma emTag_noPat {w : Char} (hw : w = 'u' ∨ w = 'o') {content : List Char}
    (hc : hasSub ['<', '/', w] content = false) :
    hasSub ['<', '/', w] ("<em>".data ++ content ++ "</em>".data) = false := by
  obtain ⟨hwa, hws, hwe, hwc, hwh, hwlt, hwgt, hwq⟩ := w_ne_letters hw
  apply wrap_noPat hw
  · simp +decide [hasSub, List.isPrefixOf]
  · simp +decide [hasSub, List.isPrefixOf, beq_iff_eq, hwe]
  · exact hc
  · decide
  · decide
  · intro y t ht
    have := congrArg List.head? ht
    simpa using this.symm

lemma codeTag_noPat {w : Char} (hw : w = 'u' ∨ w = 'o') {content : List Char}
    (hc : hasSub ['<', '/', w] content = false) :
    hasSub ['<', '/', w] ("<code>".data ++ content ++ "</code>".data) = false := by
  obtain ⟨hwa, hws, hwe, hwc, hwh, hwlt, hwgt, hwq⟩ := w_ne_letters hw
  apply wrap_noPat hw
  · simp +decide [hasSub, List.isPrefixOf]
  · simp +decide [hasSub, List.isPrefixOf, beq_iff_eq, hwc]
  · exact hc
  · decide
  · decide
  · intro y t ht
    have := congrArg List.head? ht
    simpa using this.symm

lemma regexSpace_ne_uo {c w : Char} (h : regexSpace c = true)
    (hw : w = 'u' ∨ w = 'o') : ¬ c = w := by
  rcases regexSpace_cases h with rfl | rfl | rfl | rfl | rfl <;>
    rcases hw with rfl | rfl <;> decide

lemma hasSub3_singleton (a b c x : Char) : hasSub [a, b, c] [x] = false := by
  simp [hasSub, List.isPrefixOf]

lemma isPrefixOf3_cons_false {a b c d : Char} {l : List Char} (h : ¬ a = d) :
    List.isPrefixOf [a, b, c] (d :: l) = false := by
  simp [List.isPrefixOf, h]

lemma scanSt_zero_cons (tm : Bool → List Char → Option (List Char × Nat))
    (b : Bool) (c : Char) (cs : List Char) :
    scanSt tm b 0 (c :: cs) = (match tm b (c :: cs) with
      | some (r, len) => r ++ scanSt tm false (len - 1) cs
      | none => c :: scanSt tm false 0 cs) := rfl

lemma scanSt_skip (tm : Bool → List Char → Option (List Char × Nat)) :
    ∀ (k : Nat) (cs : List Char),
      scanSt tm false k cs = scanSt tm false 0 (cs.drop k) := by
  intro k
  induction k with
  | zero => intro cs; rfl
  | succ k ih =>
    intro cs
    cases cs with
    | nil => rfl
    | cons c cs => exact ih cs

lemma imageAux_eq_scan : ∀ (cs : List Char) (b : Bool) (k : Nat),
    scanSt (fun _ l => tryImage l) b k cs = imageAux k cs := by
  intro cs
  induction cs with
  | nil => intro b k; cases k <;> rfl
  | cons c cs ih =>
    intro b k
    cases k with
    | succ k => exact ih false k
    | zero =>
      show (match tryImage (c :: cs) with
        | some (r, len) => r ++ scanSt (fun _ l => tryImage l) false (len - 1) cs
        | none => c :: scanSt (fun _ l => tryImage l) false 0 cs)
        = imageAux 0 (c :: cs)
      rw [imageAux_zero_cons]
      cases htry : tryImage (c :: cs) with
      | none => simp only [ih]
      | some v =>
        rcases v with ⟨r, len⟩
        simp only [ih]

lemma linkAux_eq_scan : ∀ (cs : List Char) (b : Bool) (k : Nat),
    scanSt (fun _ l => tryLink l) b k cs = linkAux k cs := by
  intro cs
  induction cs with
  | nil => intro b k; cases k <;> rfl
  | cons c cs ih =>
    intro b k
    cases k with
    | succ k => exact ih false k
    | zero =>
      show (match tryLink (c :: cs) with
        | some (r, len) => r ++ scanSt (fun _ l => tryLink l) false (len - 1) cs
        | none => c :: scanSt (fun _ l => tryLink l) false 0 cs)
        = linkAux 0 (c :: cs)
      rw [linkAux_zero_cons]
      cases htry : tryLink (c :: cs) with
      | none => simp only [ih]
      | some v =>
        rcases v with ⟨r, len⟩
        simp only [ih]

lemma boldAux_eq_scan : ∀ (cs : List Char) (b : Bool) (k : Nat),
    scanSt (fun _ l => tryBold l) b k cs = boldAux k cs := by
  intro cs
  induction cs with
  | nil => intro b k; cases k <;> rfl
  | cons c cs ih =>
    intro b k
    cases k with
    | succ k => exact ih false k
    | zero =>
      show (match tryBold (c :: cs) with
        | some (r, len) => r ++ scanSt (fun _ l => tryBold l) false (len - 1) cs
        | none => c :: scanSt (fun _ l => tryBold l) false 0 cs)
        = boldAux 0 (c :: cs)
      rw [boldAux_zero_cons]
      cases htry : tryBold (c :: cs) with
      | none => simp only [ih]
      | some v =>
        rcases v with ⟨r, len⟩
        simp only [ih]

lemma italicAux_eq_scan : ∀ (cs : List Char) (b : Bool) (k : Nat),
    scanSt tryItalic b k cs = italicAux b k cs := by
  intro cs
  induction cs with
  | nil => intro b k; cases k <;> rfl
  | cons c cs ih =>
    intro b k
    cases k with
    | succ k => exact ih false k
    | zero =>
      show (match tryItalic b (c :: cs) with
        | some (r, len) => r ++ scanSt tryItalic false (len - 1) cs
        | none => c :: scanSt tryItalic false 0 cs)
        = italicAux b 0 (c :: cs)
      rw [italicAux_zero_cons]
      cases htry : tryItalic b (c :: cs) with
      | none => simp only [ih]
      | some v =>
        rcases v with ⟨r, len⟩
        simp only [ih]

lemma replaceAllAux_zero_cons (pat repl : List Char) (c : Char) (cs : List Char) :
    replaceAllAux pat repl 0 (c :: cs)
      = (if pat.isPrefixOf (c :: cs) then
           repl ++ replaceAllAux pat repl (pat.length - 1) cs
         else c :: replaceAllAux pat repl 0 cs) := rfl

lemma replaceAllAux_eq_scan (pat repl : List Char) :
    ∀ (cs : List Char) (b : Bool) (k : Nat),
      scanSt (fun _ l => if pat.isPrefixOf l then some (repl, pat.length) else none)
          b k cs
        = replaceAllAux pat repl k cs := by
  intro cs
  induction cs with
  | nil => intro b k; cases k <;> rfl
  | cons c cs ih =>
    intro b k
    cases k with
    | succ k => exact ih false k
    | zero =>
      show (match (if pat.isPrefixOf (c :: cs) then some (repl, pat.length) else none) with
        | some (r, len) => r ++ scanSt
            (fun _ l => if pat.isPrefixOf l then some (repl, pat.length) else none)
            false (len - 1) cs
        | none => c :: scanSt
            (fun _ l => if pat.isPrefixOf l then some (repl, pat.length) else none)
            false 0 cs)
        = replaceAllAux pat repl 0 (c :: cs)
      rw [replaceAllAux_zero_cons]
      by_cases hp : pat.isPrefixOf (c :: cs)
      · rw [if_pos hp, if_pos hp]
        simp only [ih]
      · rw [if_neg hp, if_neg hp]
        simp only [ih]

lemma scanSt_pres {w : Char} {tm : Bool → List Char → Option (List Char × Nat)}
    (hrepl : ∀ (b : Bool) (l r : List Char) (len : Nat),
      tm b l = some (r, len) → hasSub ['<', '/', w] l = false →
      hasSub ['<', '/', w] r = false
      ∧ (∃ g, r.getLast? = some g ∧ ¬ g = '<' ∧ ¬ g = '/')
      ∧ (∃ hd tl, r = hd :: tl ∧ ¬ hd = '/' ∧ ¬ hd = w)) :
    ∀ (n : Nat) (cs : List Char), cs.length ≤ n → ∀ (b : Bool),
      hasSub ['<', '/', w] cs = false →
      hasSub ['<', '/', w] (scanSt tm b 0 cs) = false := by
  intro n
  induction n with
  | zero =>
    intro cs hlen b hcs
    have hnil : cs = [] := List.length_eq_zero.mp (Nat.le_zero.mp hlen)
    subst hnil
    exact hcs
  | succ n ih =>
    intro cs hlen b hcs
    cases cs with
    | nil => exact hcs
    | cons c rest =>
      have hrest : hasSub ['<', '/', w] rest = false := hasSub_tail_false hcs
      have hrlen : rest.length ≤ n := by
        simp only [List.length_cons] at hlen
        omega
      cases htry : tm b (c :: rest) with
      | some v =>
        rcases v with ⟨r, len⟩
        have hout : scanSt tm b 0 (c :: rest)
            = r ++ scanSt tm false (len - 1) rest := by
          rw [scanSt_zero_cons, htry]
        obtain ⟨hr, ⟨g, hg, hg1, hg2⟩, hd0, tl0, hht, hh1, hh2⟩ :=
          hrepl b (c :: rest) r len htry hcs
        rw [hout, scanSt_skip]
        have hdrop : hasSub ['<', '/', w] (rest.drop (len - 1)) = false :=
          hasSub_false_of_within (List.drop_suffix _ _).isInfix hrest
        have hdlen : (rest.drop (len - 1)).length ≤ n := by
          rw [List.length_drop]
          omega
        apply hasSub3_append_false hr (ih _ hdlen false hdrop)
        · intro hp hl
          rw [hg] at hl
          exact hg1 (Option.some.inj hl)
        · intro hp hs
          have h1 := getLast?_of_suffix_pair hs
          rw [hg] at h1
          exact hg2 (Option.some.inj h1)
      | none =>
        have hout : scanSt tm b 0 (c :: rest)
            = c :: scanSt tm false 0 rest := by
          rw [scanSt_zero_cons, htry]
        rw [hout]
        apply hasSub_cons_false _ (ih rest hrlen false hrest)
        by_contra hpre
        have hp : ['<', '/', w] <+: c :: scanSt tm false 0 rest :=
          List.isPrefixOf_iff_prefix.mp (bool_ne_false hpre)
        rcases List.cons_prefix_cons.mp hp with ⟨hc1, hp2⟩
        cases rest with
        | nil => simp [show scanSt tm false 0 ([] : List Char) = [] from rfl] at hp2
        | cons d ds =>
          have hds : hasSub ['<', '/', w] ds = false := hasSub_tail_false hrest
          cases htry2 : tm false (d :: ds) with
          | some v2 =>
            rcases v2 with ⟨r2, len2⟩
            obtain ⟨-, -, hd2, tl2, hht2, hh12, -⟩ :=
              hrepl false (d :: ds) r2 len2 htry2 hrest
            have hout2 : scanSt tm false 0 (d :: ds)
                = r2 ++ scanSt tm false (len2 - 1) ds := by
              rw [scanSt_zero_cons, htry2]
            rw [hout2, hht2] at hp2
            exact prefix_pair_head_append (fun hx => hh12 hx.symm) hp2
          | none =>
            have hout2 : scanSt tm false 0 (d :: ds)
                = d :: scanSt tm false 0 ds := by
              rw [scanSt_zero_cons, htry2]
            rw [hout2] at hp2
            rcases List.cons_prefix_cons.mp hp2 with ⟨hd1, hp3⟩
            cases ds with
            | nil => simp [show scanSt tm false 0 ([] : List Char) = [] from rfl] at hp3
            | cons e es =>
              cases htry3 : tm false (e :: es) with
              | some v3 =>
                rcases v3 with ⟨r3, len3⟩
                obtain ⟨-, -, hd3, tl3, hht3, -, hh23⟩ :=
                  hrepl false (e :: es) r3 len3 htry3 hds
                have hout3 : scanSt tm false 0 (e :: es)
                    = r3 ++ scanSt tm false (len3 - 1) es := by
                  rw [scanSt_zero_cons, htry3]
                rw [hout3, hht3] at hp3
                exact prefix_single_head_append (fun hx => hh23 hx.symm) hp3
              | none =>
                have hout3 : scanSt tm false 0 (e :: es)
                    = e :: scanSt tm false 0 es := by
                  rw [scanSt_zero_cons, htry3]
                rw [hout3] at hp3
                have hw3 : w = e := prefix_single_head hp3
                subst hc1
                subst hw3
                rcases hd1.symm with rfl
                have hcontra : hasSub ['<', '/', w] ('<' :: '/' :: w :: es) = true :=
                  (hasSub_cons_iff _ _ _).mpr (Or.inl (by simp [List.isPrefixOf]))
                have hfalse := hcs.symm.trans hcontra
                exact absurd hfalse (by decide)

lemma imgTag_getLast (alt tgt : List Char) : (imgTag alt tgt).getLast? = some '>' := by
  unfold imgTag
  exact getLast?_append_concrete (by decide) (by decide)

lemma aTag_getLast (label tgt : List Char) : (aTag label tgt).getLast? = some '>' := by
  unfold aTag
  exact getLast?_append_concrete (by decide) (by decide)

lemma strongCore_getLast (content : List Char) :
    ("<strong>".data ++ content ++ "</strong>".data).getLast? = some '>' :=
  getLast?_append_concrete (by decide) (by decide)

lemma emCore_getLast (content : List Char) :
    ("<em>".data ++ content ++ "</em>".data).getLast? = some '>' :=
  getLast?_append_concrete (by decide) (by decide)

lemma codeCore_getLast (content : List Char) :
    ("<code>".data ++ content ++ "</code>".data).getLast? = some '>' :=
  getLast?_append_concrete (by decide) (by decide)

lemma imageAux_pres {w : Char} (hw : w = 'u' ∨ w = 'o') {cs : List Char}
    (hcs : hasSub ['<', '/', w] cs = false) :
    hasSub ['<', '/', w] (imageAux 0 cs) = false := by
  obtain ⟨hwa, hws, hwe, hwc, hwh, hwlt, hwgt, hwq⟩ := w_ne_letters hw
  rw [← imageAux_eq_scan cs false 0]
  refine scanSt_pres ?_ cs.length cs le_rfl false hcs
  intro b l r len htry hl
  rcases tryImage_inv htry with ⟨alt, tgt, rfl, hia, hit, hlen1⟩
  exact ⟨imgTag_noPat hw (hasSub_false_of_within hia hl) (hasSub_false_of_within hit hl),
    ⟨'>', imgTag_getLast alt tgt, by decide, by decide⟩,
    '<', "img src=\"".data ++ normalizeAssetPath tgt ++ "\" alt=\"".data ++ alt
      ++ "\"/>".data, rfl, by decide, fun hx => hwlt hx.symm⟩

lemma linkAux_pres {w : Char} (hw : w = 'u' ∨ w = 'o') {cs : List Char}
    (hcs : hasSub ['<', '/', w] cs = false) :
    hasSub ['<', '/', w] (linkAux 0 cs) = false := by
  obtain ⟨hwa, hws, hwe, hwc, hwh, hwlt, hwgt, hwq⟩ := w_ne_letters hw
  rw [← linkAux_eq_scan cs false 0]
  refine scanSt_pres ?_ cs.length cs le_rfl false hcs
  intro b l r len htry hl
  rcases tryLink_inv htry with ⟨label, tgt, rfl, hia, hit, hlen1⟩
  exact ⟨aTag_noPat hw (hasSub_false_of_within hia hl) (hasSub_false_of_within hit hl),
    ⟨'>', aTag_getLast label tgt, by decide, by decide⟩,
    '<', "a href=\"".data ++ normalizeAssetPath tgt ++ "\">".data ++ label
      ++ "</a>".data, rfl, by decide, fun hx => hwlt hx.symm⟩

lemma boldAux_pres {w : Char} (hw : w = 'u' ∨ w = 'o') {cs : List Char}
    (hcs : hasSub ['<', '/', w] cs = false) :
    hasSub ['<', '/', w] (boldAux 0 cs) = false := by
  obtain ⟨hwa, hws, hwe, hwc, hwh, hwlt, hwgt, hwq⟩ := w_ne_letters hw
  rw [← boldAux_eq_scan cs false 0]
  refine scanSt_pres ?_ cs.length cs le_rfl false hcs
  intro b l r len htry hl
  rcases tryBold_inv htry with ⟨content, rfl, hinf, hlen1⟩
  exact ⟨strongTag_noPat hw (hasSub_false_of_within hinf hl),
    ⟨'>', strongCore_getLast content, by decide, by decide⟩,
    '<', "strong>".data ++ content ++ "</strong>".data, rfl, by decide,
    fun hx => hwlt hx.symm⟩

lemma italicAux_pres {w : Char} (hw : w = 'u' ∨ w = 'o') (b : Bool) {cs : List Char}
    (hcs : hasSub ['<', '/', w] cs = false) :
    hasSub ['<', '/', w] (italicAux b 0 cs) = false := by
  obtain ⟨hwa, hws, hwe, hwc, hwh, hwlt, hwgt, hwq⟩ := w_ne_letters hw
  rw [← italicAux_eq_scan cs b 0]
  refine scanSt_pres ?_ cs.length cs le_rfl b hcs
  intro b2 l r len htry hl
  rcases tryItalic_inv htry with ⟨content, tail, hinf, hlen1, hform, htail⟩
  have hcont : hasSub ['<', '/', w] content = false := hasSub_false_of_within hinf hl
  obtain ⟨hY, g, hYg, hg1, hg2⟩ :
      hasSub ['<', '/', w] ("<em>".data ++ content ++ "</em>".data ++ tail) = false
      ∧ ∃ g, ("<em>".data ++ content ++ "</em>".data ++ tail).getLast? = some g
        ∧ ¬ g = '<' ∧ ¬ g = '/' := by
    rcases htail with rfl | ⟨sp2, rfl, hsp2⟩
    · rw [List.append_nil]
      exact ⟨emTag_noPat hw hcont, '>', emCore_getLast content, by decide, by decide⟩
    · refine ⟨?_, sp2, ?_, regexSpace_ne_lt hsp2, regexSpace_ne_slash hsp2⟩
      · apply hasSub3_append_false (emTag_noPat hw hcont) (hasSub3_singleton ..)
        · intro hp hlx
          exact regexSpace_ne_slash hsp2 (prefix_pair_head hp).symm
        · intro hp hs
          have h1 := getLast?_of_suffix_pair hs
          rw [emCore_getLast content] at h1
          exact absurd (Option.some.inj h1) (by decide)
      · exact getLast?_append_concrete rfl (by simp)
  have hYne : ("<em>".data ++ content ++ "</em>".data ++ tail) ≠ [] := by
    intro hnil
    rw [hnil] at hYg
    simp at hYg
  rcases hform with hr | ⟨sp, rest0, hcseq, hsp, hr⟩
  · subst hr
    exact ⟨hY, ⟨g, hYg, hg1, hg2⟩,
      '<', "em>".data ++ content ++ "</em>".data ++ tail, rfl, by decide,
      fun hx => hwlt hx.symm⟩
  · subst hr
    refine ⟨hasSub_cons_false
        (isPrefixOf3_cons_false (fun hx => regexSpace_ne_lt hsp hx.symm)) hY,
      ⟨g, ?_, hg1, hg2⟩,
      sp, "<em>".data ++ content ++ "</em>".data ++ tail, rfl,
      regexSpace_ne_slash hsp, regexSpace_ne_uo hsp hw⟩
    rw [show sp :: ("<em>".data ++ content ++ "</em>".data ++ tail)
      = [sp] ++ ("<em>".data ++ content ++ "</em>".data ++ tail) from rfl]
    exact getLast?_append_concrete hYg hYne

lemma replaceAll_pres {w : Char} (hw : w = 'u' ∨ w = 'o')
    {pat0 repl0 cs : List Char} (he : goodEntry (pat0, repl0))
    (hcs : hasSub ['<', '/', w] cs = false) :
    hasSub ['<', '/', w] (replaceAll pat0 repl0 cs) = false := by
  obtain ⟨hwa, hws, hwe, hwc, hwh, hwlt, hwgt, hwq⟩ := w_ne_letters hw
  rcases he with ⟨k, content, hp0, hr0, hnc⟩
  dsimp only [] at hp0 hr0
  simp only [replaceAll]
  rw [if_neg (by rw [hp0, show phName k
      = '_' :: ("_CODE".data ++ (Nat.repr k).data ++ "__".data) from rfl]; simp)]
  rw [← replaceAllAux_eq_scan pat0 repl0 cs false 0]
  refine scanSt_pres ?_ cs.length cs le_rfl false hcs
  intro b l r len htry hl
  split_ifs at htry with hpre
  · have h1 := Option.some.inj htry
    rw [Prod.mk.injEq] at h1
    obtain ⟨hr, hlen⟩ := h1
    subst hr
    rw [hr0]
    exact ⟨codeTag_noPat hw (hasSub_false_of_not_mem hnc),
      ⟨'>', codeCore_getLast content, by decide, by decide⟩,
      '<', "code>".data ++ content ++ "</code>".data, rfl, by decide,
      fun hx => hwlt hx.symm⟩

lemma restoreAll_pres {w : Char} (hw : w = 'u' ∨ w = 'o') :
    ∀ (m : List (List Char × List Char)) (cs : List Char),
      (∀ e ∈ m, goodEntry e) → hasSub ['<', '/', w] cs = false →
      hasSub ['<', '/', w] (restoreAll m cs) = false := by
  intro m
  induction m with
  | nil => intro cs hm hcs; exact hcs
  | cons e m ih =>
    intro cs hm hcs
    have h1 : restoreAll (e :: m) cs = restoreAll m (replaceAll e.1 e.2 cs) := rfl
    rw [h1]
    exact ih _ (fun x hx => hm x (List.mem_cons_of_mem _ hx))
      (replaceAll_pres hw (hm e (List.mem_cons_self ..)) hcs)

lemma parseInline_noCloseTag {w : Char} (hw : w = 'u' ∨ w = 'o') (text : List Char) :
    hasSub ['<', '/', w] (parseInline text) = false := by
  have hesc : '<' ∉ htmlEscapeString text := htmlEscape_not_lt text
  have hout : '<' ∉ (extractAux none 0 [] (htmlEscapeString text)).1 :=
    extract_out_not_lt _ none 0 [] hesc (fun acc h => by cases h)
  have hmap : ∀ e ∈ (extractAux none 0 [] (htmlEscapeString text)).2, goodEntry e :=
    extract_map_good _ none 0 [] hesc (fun acc h => by cases h)
      (fun e h => absurd h (List.not_mem_nil e))
  have h0 : hasSub ['<', '/', w] (extractAux none 0 [] (htmlEscapeString text)).1
      = false := hasSub_false_of_not_mem hout
  simp only [parseInline, inlineAfterEscape]
  exact restoreAll_pres hw _ _ hmap
    (italicAux_pres hw true (boldAux_pres hw (linkAux_pres hw (imageAux_pres hw h0))))

lemma hasSub_close_ul {out : List Char} (h : hasSub ['<', '/', 'u'] out = false) :
    hasSub ("</ul>".data) out = false := by
  by_contra hc
  have h2 : hasSub (['<', '/', 'u'] ++ "l>".data) out = true := bool_ne_false hc
  exact absurd (hasSub_of_prefix_pattern h2) (by simp [h])

lemma hasSub_close_ol {out : List Char} (h : hasSub ['<', '/', 'o'] out = false) :
    hasSub ("</ol>".data) out = false := by
  by_contra hc
  have h2 : hasSub (['<', '/', 'o'] ++ "l>".data) out = true := bool_ne_false hc
  exact absurd (hasSub_of_prefix_pattern h2) (by simp [h])

lemma hN_noPat {w : Char} (hw : w = 'u' ∨ w = 'o') (d : Char) (X : List Char)
    (hX : hasSub ['<', '/', w] X = false) :
    hasSub ['<', '/', w] ("<h".data ++ [d] ++ ">".data ++ X
      ++ "</h".data ++ [d] ++ ">\n".data) = false := by
  obtain ⟨hwa, hws, hwe, hwc, hwh, hwlt, hwgt, hwq⟩ := w_ne_letters hw
  rw [show ("<h".data ++ [d] ++ ">".data ++ X ++ "</h".data ++ [d] ++ ">\n".data
      : List Char)
    = ("<h".data ++ [d] ++ ">".data) ++ X
      ++ ("</h".data ++ ([d] ++ ">\n".data)) from by simp [List.append_assoc]]
  apply wrap_noPat hw
  · rw [show ("<h".data ++ [d] ++ ">".data : List Char) = ['<', 'h', d, '>'] from rfl]
    simp +decide [hasSub, List.isPrefixOf, beq_iff_eq]
  · rw [show ("</h".data ++ ([d] ++ ">\n".data) : List Char)
      = ['<', '/', 'h', d, '>', '\n'] from rfl]
    simp +decide [hasSub, List.isPrefixOf, beq_iff_eq, hwh]
  · exact hX
  · intro hcon
    rw [show (("<h".data ++ [d] ++ ">".data : List Char)).getLast? = some '>' from rfl]
      at hcon
    exact absurd (Option.some.inj hcon) (by decide)
  · intro hs
    have h1 := getLast?_of_suffix_pair hs
    rw [show (("<h".data ++ [d] ++ ">".data : List Char)).getLast? = some '>' from rfl]
      at h1
    exact absurd (Option.some.inj h1) (by decide)
  · intro y t ht
    have h2 := congrArg List.head? ht
    simpa using h2.symm

lemma heading_noCloseTag {w : Char} (hw : w = 'u' ∨ w = 'o') {n : Nat}
    (h1 : 1 ≤ n) (h6 : n ≤ 6) (X : List Char) :
    hasSub ['<', '/', w] ("<h".data ++ (Nat.repr n).data ++ ">".data
      ++ parseInline X ++ "</h".data ++ (Nat.repr n).data ++ ">\n".data) = false := by
  interval_cases n <;>
    exact hN_noPat hw _ (parseInline X) (parseInline_noCloseTag hw X)

/-- C3: within one `markdownToHTML` pass (one `processLine` step outside a code
block), a heading line, a horizontal-rule line (`---`/`***`/`___`) and a blank
line leave the state (and so the open-list flags) unchanged and their emitted
output contains no `</ul>` and no `</ol>`, whereas a fence line, a list item of
the other list type, and a non-empty paragraph line clear the open-list flags
and emit the pending list-closing tag(s) before their own output. -/
theorem c3_list_frame_effect (st : MDState) (line : List Char) :
    (st.inCodeBlock = false →
      ("```".data).isPrefixOf (trimSpace line) = false →
      ("#".data).isPrefixOf (trimSpace line) = true →
      ((trimSpace line).takeWhile (· == '#')).length ≤ 6 →
      (processLine st line).1 = st
        ∧ hasSub ("</ul>".data) (processLine st line).2 = false
        ∧ hasSub ("</ol>".data) (processLine st line).2 = false)
    ∧ (st.inCodeBlock = false →
      ("```".data).isPrefixOf (trimSpace line) = false →
      (trimSpace line = "---".data ∨ trimSpace line = "***".data
        ∨ trimSpace line = "___".data) →
      (processLine st line).1 = st
        ∧ hasSub ("</ul>".data) (processLine st line).2 = false
        ∧ hasSub ("</ol>".data) (processLine st line).2 = false)
    ∧ (st.inCodeBlock = false → trimSpace line = [] →
      (processLine st line).1 = st ∧ (processLine st line).2 = [])
    ∧ (("```".data).isPrefixOf (trimSpace line) = true →
      (processLine st line).1.inUL = false ∧ (processLine st line).1.inOL = false
        ∧ (processLine st line).2
          = (if st.inUL then "</ul>\n".data else [])
            ++ (if st.inOL then "</ol>\n".data else [])
            ++ (if st.inCodeBlock then "</code></pre>".data else "<pre><code>".data))
    ∧ (st.inCodeBlock = false →
      ("```".data).isPrefixOf (trimSpace line) = false →
      ¬ (("#".data).isPrefixOf (trimSpace line) = true
        ∧ ((trimSpace line).takeWhile (· == '#')).length ≤ 6) →
      ¬ (trimSpace line = "---".data ∨ trimSpace line = "***".data
        ∨ trimSpace line = "___".data) →
      (("- ".data).isPrefixOf (trimSpace line) = true
        ∨ ("* ".data).isPrefixOf (trimSpace line) = true) →
      st.inOL = true →
      (processLine st line).1.inOL = false
        ∧ ∃ rest, (processLine st line).2 = "</ol>\n".data ++ rest)
    ∧ (∀ dg r : List Char, st.inCodeBlock = false →
      ("```".data).isPrefixOf (trimSpace line) = false →
      ¬ (("#".data).isPrefixOf (trimSpace line) = true
        ∧ ((trimSpace line).takeWhile (· == '#')).length ≤ 6) →
      ¬ (trimSpace line = "---".data ∨ trimSpace line = "***".data
        ∨ trimSpace line = "___".data) →
      ¬ (("- ".data).isPrefixOf (trimSpace line) = true
        ∨ ("* ".data).isPrefixOf (trimSpace line) = true) →
      orderedMatch (trimSpace line) = some (dg, r) →
      st.inUL = true →
      (processLine st line).1.inUL = false
        ∧ ∃ rest, (processLine st line).2 = "</ul>\n".data ++ rest)
    ∧ (st.inCodeBlock = false →
      ("```".data).isPrefixOf (trimSpace line) = false →
      ¬ (("#".data).isPrefixOf (trimSpace line) = true
        ∧ ((trimSpace line).takeWhile (· == '#')).length ≤ 6) →
      ¬ (trimSpace line = "---".data ∨ trimSpace line = "***".data
        ∨ trimSpace line = "___".data) →
      ¬ (("- ".data).isPrefixOf (trimSpace line) = true
        ∨ ("* ".data).isPrefixOf (trimSpace line) = true) →
      orderedMatch (trimSpace line) = none →
      (trimSpace line).isEmpty = false →
      (processLine st line).1.inUL = false ∧ (processLine st line).1.inOL = false
        ∧ (processLine st line).2
          = (if st.inUL then "</ul>\n".data else [])
            ++ (if st.inOL then "</ol>\n".data else [])
            ++ "<p>".data ++ parseInline (trimSpace line) ++ "</p>\n".data) := by
  refine ⟨?_, ?_, ?_, ?_, ?_, ?_, ?_⟩
  · intro hcode hfence hpre hlvl
    have hn1 : 1 ≤ ((trimSpace line).takeWhile (· == '#')).length := by
      rcases List.isPrefixOf_iff_prefix.mp hpre with ⟨t, ht⟩
      rw [← ht, show ("#".data ++ t : List Char) = '#' :: t from rfl,
        List.takeWhile_cons]
      simp
    rw [processLine_heading_eq st line hcode hfence hpre hlvl]
    exact ⟨rfl,
      hasSub_close_ul (heading_noCloseTag (Or.inl rfl) hn1 hlvl
        (trimSpace ((trimSpace line).drop
          ((trimSpace line).takeWhile (· == '#')).length))),
      hasSub_close_ol (heading_noCloseTag (Or.inr rfl) hn1 hlvl
        (trimSpace ((trimSpace line).drop
          ((trimSpace line).takeWhile (· == '#')).length)))⟩
  · intro hcode hfence hhr
    rw [processLine_hr_eq st line hcode hfence hhr]
    exact ⟨rfl, show hasSub ("</ul>".data) ("<hr>\n".data) = false by decide,
      show hasSub ("</ol>".data) ("<hr>\n".data) = false by decide⟩
  · intro hcode htrim
    rw [processLine_blank_eq st line hcode htrim]
    exact ⟨rfl, rfl⟩
  · intro hfence
    rw [processLine_fence_eq st line hfence]
    exact ⟨rfl, rfl, rfl⟩
  · intro hcode hfence hhead hhr hul hol
    rw [processLine_ul_eq st line hcode hfence hhead hhr hul]
    refine ⟨rfl, (if !st.inUL then "<ul>\n".data else []) ++ ("<li>".data
      ++ (parseInline (dropPrefixIf ("* ".data)
        (dropPrefixIf ("- ".data) (trimSpace line))) ++ "</li>\n".data)), ?_⟩
    simp [hol, List.append_assoc]
  · intro dg r hcode hfence hhead hhr hul hord houl
    rw [processLine_ol_eq st line dg r hcode hfence hhead hhr hul hord]
    refine ⟨rfl, (if !st.inOL then "<ol>\n".data else []) ++ ("<li>".data
      ++ (parseInline r ++ "</li>\n".data)), ?_⟩
    simp [houl, List.append_assoc]
  · intro hcode hfence hhead hhr hul hord hne
    rw [processLine_para_eq st line hcode hfence hhead hhr hul hord hne]
    exact ⟨rfl, rfl, rfl⟩

/-- Witness for C3: the heading line `## t` processed in the state with an
open unordered list leaves the state unchanged and emits no list-closing tag. -/
theorem c3_witness :
    (processLine ⟨false, true, false⟩ ("## t".data)).1 = ⟨false, true, false⟩
    ∧ hasSub ("</ul>".data) (processLine ⟨false, true, false⟩ ("## t".data)).2 = false
    ∧ hasSub ("</ol>".data) (processLine ⟨false, true, false⟩ ("## t".data)).2 = false :=
  (c3_list_frame_effect ⟨false, true, false⟩ ("## t".data)).1
    (by decide) (by decide) (by decide) (by decide)
